import Mathlib

/-!
# Colour picking and image precision conversion

A shallow embedding of `app/core/gimppickable.c` (the pickable interface and
`gimp_pickable_pick_color`) and of `app/core/gimpimage-convert-precision.c`
(`gimp_image_convert_precision`), followed by the properties proved of them.

Conventions of the embedding:

* `gint` values are mathematical integers; every `gint` operation of the source
  checks that its result is representable in 32 bits and otherwise ends the run
  with `Fault.signed_overflow` (C leaves signed overflow undefined).
* A run of a function is an `Except Fault _`: either the function returns, or it
  executes an operation whose behaviour C leaves undefined.
* Output parameters (`GimpRGB *color`, `gint *color_index`) are modelled by an
  `Option`: `none` means the function did not store through the pointer.
* The calls `gimp_image_convert_precision` makes to its collaborators (progress
  sink, undo system, notification system, drawables, mask) are recorded, in
  order, in a log of `Call`s.
-/

namespace Gimp

/-! ## Machine arithmetic -/

/-- Operations whose behaviour the C language leaves undefined and that the
embedded functions can reach. -/
inductive Fault where
  | division_by_zero
  | signed_overflow
  | float_out_of_range
  deriving DecidableEq, Repr

deriving instance DecidableEq for Except

/-- Largest value of a `gint` (32-bit two-complement). -/
def G_MAXINT : Int := 2147483647

/-- Smallest value of a `gint`. -/
def G_MININT : Int := -2147483648

/-- A mathematical integer that a `gint` can hold. -/
def is_gint (v : Int) : Prop := G_MININT ≤ v ∧ v ≤ G_MAXINT

instance (v : Int) : Decidable (is_gint v) := by
  unfold is_gint; exact inferInstance

/-- Result of a `gint` operation whose mathematical value is `v`. -/
def gint_result (v : Int) : Except Fault Int :=
  if is_gint v then .ok v else .error .signed_overflow

/-- The C expression `a + b` on `gint`s. -/
def gint_add (a b : Int) : Except Fault Int := gint_result (a + b)

/-- The C expression `a - b` on `gint`s. -/
def gint_sub (a b : Int) : Except Fault Int := gint_result (a - b)

/-- The C expression `a / b` on `gint`s: truncating division, undefined for a
zero divisor and for `G_MININT / -1`. -/
def gint_div (a b : Int) : Except Fault Int :=
  if b = 0 then .error .division_by_zero else gint_result (Int.tdiv a b)

/-- An unsigned byte. -/
abbrev guchar := Fin 256

/-- The C cast `(guchar) v` of a `gint`: reduction modulo 256. -/
def to_guchar (v : Int) : guchar :=
  ⟨(v % 256).toNat, by
    have h1 : 0 ≤ v % 256 := Int.emod_nonneg v (by decide)
    have h2 : v % 256 < 256 := Int.emod_lt_of_pos v (by decide)
    omega⟩

/-- The integer promotion of a `guchar` to `gint`. -/
def of_guchar (b : guchar) : Int := (b.val : Int)

/-- A `gdouble`. A finite double is `mantissa * 2 ^ exponent` for integers
`mantissa` and `exponent`; the embedding keeps exactly that pair (and does not
bound it, so every finite double is covered). -/
inductive gdouble where
  | finite (mantissa : Int) (exponent : Int)
  | infinite (negative : Bool)
  | nan
  deriving DecidableEq, Repr

/-- The C cast `(gint) d` of a `gdouble`: the value is truncated toward zero;
the behaviour is undefined when the truncated value is not representable (and
for infinities and NaN). -/
def gdouble_to_gint : gdouble → Except Fault Int
  | .finite m e =>
      let t : Int := if 0 ≤ e then m * 2 ^ e.toNat else Int.tdiv m (2 ^ (-e).toNat)
      if is_gint t then .ok t else .error .float_out_of_range
  | .infinite _ => .error .float_out_of_range
  | .nan => .error .float_out_of_range

/-- The loop `for (v = lo; v <= hi; v++) body`, entered with `v = lo` after
`trips` has been fixed to the number of values between `v` and `hi` inclusive
(`hi` does not change while the loop runs). Each trip runs the body and then
`v++`, which is a `gint` addition. -/
def for_gint {σ : Type} (body : Int → σ → Except Fault σ) :
    Nat → Int → σ → Except Fault σ
  | 0, _, s => .ok s
  | n + 1, v, s =>
      match body v s with
      | .error f => .error f
      | .ok s1 =>
          match gint_add v 1 with
          | .error f => .error f
          | .ok v1 => for_gint body n v1 s1

/-- Number of trips of `for (v = lo; v <= hi; v++)`. -/
def trip_count (lo hi : Int) : Nat := (hi + 1 - lo).toNat

/-! ## Pixel formats and pixels -/

/-- A babl pixel format descriptor. `RGBA_u8` is the format the source obtains
with `babl_format` for the name R′G′B′A u8 (8-bit perceptual RGB with alpha);
every other format is identified by a number and carries whether it is a
palette (indexed) format. -/
inductive Babl where
  | RGBA_u8
  | other (id : Nat) (palette : Bool)
  deriving DecidableEq, Repr

/-- Modelled from the spec: `babl_format_is_palette` belongs to the babl library.
The fixed RGBA format is not a palette format; for a NULL format (a pickable
without native format) the answer is taken to be FALSE. -/
def babl_format_is_palette : Option Babl → Bool
  | some (.other _ p) => p
  | some .RGBA_u8 => false
  | none => false

/-- The four bytes of the local buffer `guchar pixel[4]`, named by the channel
indices `RED = 0`, `GREEN = 1`, `BLUE = 2`, `ALPHA = 3`. -/
structure Pixel where
  red : guchar
  green : guchar
  blue : guchar
  alpha : guchar
  deriving DecidableEq, Repr

/-- The colour stored by `gimp_rgba_set_uchar (color, r, g, b, a)`: kept as the
four bytes the call receives (the library then scales each by 1/255). -/
structure GimpRGB where
  r : guchar
  g : guchar
  b : guchar
  a : guchar
  deriving DecidableEq, Repr

/-- The call `gimp_rgba_set_uchar (color, r, g, b, a)`. -/
def gimp_rgba_set_uchar (r g b a : guchar) : GimpRGB := ⟨r, g, b, a⟩

/-! ## The pickable interface -/

/-- Modelled from the spec: an implementation of the interface slot
`get_pixel_at` (the implementations belong to the drawable, projection and image
sources). A read fails exactly when `(x, y)` is outside the defined extent of
the source, whatever the format; inside the extent it stores the pixel at
`(x, y)` converted to the requested format. `pixel_at x y format` is the content
of the caller's four-byte buffer after such a store (a format narrower than four
bytes leaves the upper bytes to the implementation). -/
structure PixelSource where
  inside : Int → Int → Bool
  pixel_at : Int → Int → Option Babl → Pixel

/-- The slot `get_pixel_at` called on the coordinate `(x, y)`: `none` is the
return value FALSE (the caller's buffer is left as it was), `some px` the return
value TRUE with the buffer holding `px`. -/
def PixelSource.read (source : PixelSource) (x y : Int) (format : Option Babl) :
    Option Pixel :=
  if source.inside x y then some (source.pixel_at x y format) else none

/-- A pickable object together with its `GimpPickableInterface`. A slot of the
interface that is NULL is `none`. -/
structure GimpPickable where
  get_format : Option (Unit → Option Babl)
  get_pixel_at : Option PixelSource

/-- Source: `gimp_pickable_get_format`. -/
def gimp_pickable_get_format (pickable : GimpPickable) : Option Babl :=
  match pickable.get_format with
  | some f => f ()
  | none => none

/-- Source: `gimp_pickable_get_pixel_at`. A NULL `format` is replaced by the
pickable's native format; a missing implementation reads as FALSE. -/
def gimp_pickable_get_pixel_at (pickable : GimpPickable) (x y : Int)
    (format : Option Babl) : Option Pixel :=
  let format := match format with
    | none => gimp_pickable_get_format pickable
    | some f => some f
  match pickable.get_pixel_at with
  | some source => source.read x y format
  | none => none

/-! ## Colour picking -/

/-- The locals of the averaging branch of `gimp_pickable_pick_color`: `count`,
the four accumulators `color_avg[RED .. ALPHA]` and the buffer `pixel`. -/
structure SampleState where
  count : Int
  avg_red : Int
  avg_green : Int
  avg_blue : Int
  avg_alpha : Int
  pixel : Pixel
  deriving DecidableEq, Repr

/-- Body of the inner loop at the coordinate `(i, j)`: a hit increments `count`
and adds the four bytes just read to the accumulators; a miss changes
nothing. -/
def sample_pixel (pickable : GimpPickable) (format : Option Babl) (i j : Int)
    (s : SampleState) : Except Fault SampleState :=
  match gimp_pickable_get_pixel_at pickable i j format with
  | none => .ok s
  | some px => do
      let count ← gint_add s.count 1
      let red ← gint_add s.avg_red (of_guchar px.red)
      let green ← gint_add s.avg_green (of_guchar px.green)
      let blue ← gint_add s.avg_blue (of_guchar px.blue)
      let alpha ← gint_add s.avg_alpha (of_guchar px.alpha)
      .ok ⟨count, red, green, blue, alpha, px⟩

/-- The inner loop `for (j = y - radius; j <= y + radius; j++)` at column
`i`. -/
def sample_column (pickable : GimpPickable) (format : Option Babl)
    (y radius i : Int) (s : SampleState) : Except Fault SampleState := do
  let lo ← gint_sub y radius
  let hi ← gint_add y radius
  for_gint (sample_pixel pickable format i) (trip_count lo hi) lo s

/-- The two nested loops of the averaging branch, started from `s`. -/
def sample_square (pickable : GimpPickable) (format : Option Babl)
    (x y radius : Int) (s : SampleState) : Except Fault SampleState := do
  let lo ← gint_sub x radius
  let hi ← gint_add x radius
  for_gint (sample_column pickable format y radius) (trip_count lo hi) lo s

/-- The expression `(guchar) ((avg + count / 2) / count)`. -/
def rounded_average (avg count : Int) : Except Fault guchar := do
  let half ← gint_div count 2
  let sum ← gint_add avg half
  let q ← gint_div sum count
  .ok (to_guchar q)

/-- The branch `if (sample_average) { ... }`: the content of `pixel` when the
branch is left. -/
def average_pixel (pickable : GimpPickable) (format : Option Babl)
    (x y : Int) (average_radius : gdouble) (pixel : Pixel) :
    Except Fault Pixel := do
  let radius ← gdouble_to_gint average_radius
  let s ← sample_square pickable format x y radius ⟨0, 0, 0, 0, 0, pixel⟩
  let red ← rounded_average s.avg_red s.count
  let green ← rounded_average s.avg_green s.count
  let blue ← rounded_average s.avg_blue s.count
  let alpha ← rounded_average s.avg_alpha s.count
  .ok ⟨red, green, blue, alpha⟩

/-- What a call of `gimp_pickable_pick_color` leaves behind: the returned
`gboolean`, the colour stored through `color` and the value stored through
`color_index` (`none`: nothing was stored). -/
structure PickResult where
  ret : Bool
  color : Option GimpRGB
  color_index : Option Int
  deriving DecidableEq, Repr

/-- The block `if (color_index) { ... }` for a non-NULL `color_index`: the value
stored. The return value of the read in the native format is ignored by the
source, so after a miss `pixel[0]` is what the buffer held before. -/
def pick_color_index (pickable : GimpPickable) (x y : Int)
    (sample_average : Bool) (pixel : Pixel) : Int :=
  let format := gimp_pickable_get_format pickable
  if babl_format_is_palette format && !sample_average then
    let pixel := match gimp_pickable_get_pixel_at pickable x y format with
      | some px => px
      | none => pixel
    of_guchar pixel.red
  else
    -1

/-- Source: `gimp_pickable_pick_color`. `want_index` tells whether the caller
passed a non-NULL `color_index`. -/
def gimp_pickable_pick_color (pickable : GimpPickable) (x y : Int)
    (sample_average : Bool) (average_radius : gdouble) (want_index : Bool) :
    Except Fault PickResult :=
  let format := some Babl.RGBA_u8
  match gimp_pickable_get_pixel_at pickable x y format with
  | none => .ok ⟨false, none, none⟩
  | some pixel => do
      let pixel ← if sample_average
        then average_pixel pickable format x y average_radius pixel
        else .ok pixel
      let color := gimp_rgba_set_uchar pixel.red pixel.green pixel.blue pixel.alpha
      let color_index := if want_index
        then some (pick_color_index pickable x y sample_average pixel)
        else none
      .ok ⟨true, some color, color_index⟩

/-! ## The averaging rule as the specification words it -/

/-- The `n` consecutive integers that start at `lo`. -/
def consecutive : Nat → Int → List Int
  | 0, _ => []
  | n + 1, lo => lo :: consecutive n (lo + 1)

/-- Specification side: the integers `v` with `lo ≤ v ≤ hi`, in increasing
order. -/
def closed_range (lo hi : Int) : List Int := consecutive (trip_count lo hi) lo

/-- Specification side: the coordinates of the square neighbourhood
`[x - r, x + r] × [y - r, y + r]`, both ends inclusive. -/
def neighbourhood (x y r : Int) : List (Int × Int) :=
  (closed_range (x - r) (x + r)).flatMap
    (fun i => (closed_range (y - r) (y + r)).map (fun j => (i, j)))

/-- Specification side: a coordinate is inside the source extent when the read
in the fixed RGBA format reports a hit. -/
def in_extent (pickable : GimpPickable) (i j : Int) : Bool :=
  (gimp_pickable_get_pixel_at pickable i j (some Babl.RGBA_u8)).isSome

/-- Specification side: the pixels of the neighbourhood that are inside the
extent of the source, each read in the fixed RGBA format. -/
def sampled_pixels (pickable : GimpPickable) (x y r : Int) : List Pixel :=
  (neighbourhood x y r).filterMap
    (fun c => gimp_pickable_get_pixel_at pickable c.1 c.2 (some Babl.RGBA_u8))

/-- Specification side: `count`, the number of in-extent pixels of the
neighbourhood. -/
def sampled_count (pickable : GimpPickable) (x y r : Int) : Nat :=
  (sampled_pixels pickable x y r).length

/-- Specification side: `S_c`, the sum of the channel `c` over the in-extent
pixels of the neighbourhood. -/
def channel_sum (c : Pixel → guchar) (pickable : GimpPickable) (x y r : Int) : Nat :=
  ((sampled_pixels pickable x y r).map (fun px => (c px).val)).sum

/-- Specification side: the rounding rule `floor ((S + count / 2) / count)` on
natural numbers. -/
def round_half_up (sum count : Nat) : Nat := (sum + count / 2) / count

/-! ## Image precision conversion -/

/-- The values of the enumeration `GimpPrecision` that the `switch` of
`gimp_image_convert_precision` distinguishes. -/
inductive GimpPrecision where
  | U8
  | U16
  | U32
  | HALF
  | FLOAT
  deriving DecidableEq, Repr

/-- The enumeration `GimpImageBaseType`. -/
inductive GimpImageBaseType where
  | RGB
  | GRAY
  | INDEXED
  deriving DecidableEq, Repr

/-- The undo group kinds the function uses. -/
inductive GimpUndoType where
  | GROUP_IMAGE_CONVERT
  deriving DecidableEq, Repr

/-- A layer or channel: an identity and its base type (what
`gimp_drawable_get_base_type` returns). -/
structure GimpDrawable where
  id : Nat
  base_type : GimpImageBaseType
  deriving DecidableEq, Repr

/-- Modelled from the spec: the pixel format of selection masks, a
single-component format that depends on a precision only. -/
structure MaskFormat where
  precision : GimpPrecision
  deriving DecidableEq, Repr

/-- The macro `GEGL_RECTANGLE (x, y, width, height)`. -/
structure GeglRectangle where
  x : Int
  y : Int
  width : Int
  height : Int
  deriving DecidableEq, Repr

/-- What the embedding keeps of a `GeglBuffer`: its extent and its format. -/
structure GeglBuffer where
  extent : GeglRectangle
  format : MaskFormat
  deriving DecidableEq, Repr

/-- The image: its precision attribute, base type, canvas size, layer list,
channel list and the buffer of its selection mask. -/
structure GimpImage where
  precision : GimpPrecision
  base_type : GimpImageBaseType
  width : Int
  height : Int
  layers : List GimpDrawable
  channels : List GimpDrawable
  mask_buffer : GeglBuffer
  deriving DecidableEq, Repr

/-- A call that `gimp_image_convert_precision` makes to one of its
collaborators, with the arguments it passes. `gimp_image_undo_push_image_precision`
carries the precision the image has at the moment of the call (the value the
undo step has to restore); `gimp_progress_set_value` carries the two operands
of the quotient `(gdouble) nth_drawable / (gdouble) n_drawables`. -/
inductive Call where
  | gimp_progress_start (message : String) (cancelable : Bool)
  | g_object_freeze_notify
  | gimp_image_undo_group_start (undo_type : GimpUndoType) (name : String)
  | gimp_image_undo_push_image_precision (image_precision : GimpPrecision)
  | g_object_set_precision (precision : GimpPrecision)
  | gimp_drawable_convert_type (drawable : GimpDrawable)
      (new_base_type : GimpImageBaseType) (new_precision : GimpPrecision)
      (push_undo : Bool)
  | gimp_progress_set_value (nth_drawable : Int) (n_drawables : Int)
  | gimp_image_undo_push_mask_precision
  | gimp_gegl_buffer_new (rect : GeglRectangle) (format : MaskFormat)
  | gegl_buffer_copy (src : GeglBuffer) (dst : GeglBuffer)
  | gimp_drawable_set_buffer (push_undo : Bool) (buffer : GeglBuffer)
  | gimp_image_undo_group_end
  | gimp_image_precision_changed
  | g_object_thaw_notify
  | gimp_progress_end
  deriving DecidableEq, Repr

/-- The state the function runs in: the image and the calls made so far,
oldest first. -/
structure Env where
  image : GimpImage
  log : List Call
  deriving DecidableEq, Repr

/-- Append a call to the log. -/
def Env.call (w : Env) (c : Call) : Env := { w with log := w.log ++ [c] }

/-- Modelled from the spec: `gimp_image_get_mask_format`, the mask format of
the precision the image has at the moment of the call. -/
def gimp_image_get_mask_format (image : GimpImage) : MaskFormat :=
  ⟨image.precision⟩

/-- The `switch (precision)` that selects `undo_desc`. -/
def undo_desc : GimpPrecision → String
  | .U8 => "Convert Image to 8 bit integer"
  | .U16 => "Convert Image to 16 bit integer"
  | .U32 => "Convert Image to 32 bit integer"
  | .HALF => "Convert Image to 16 bit floating point"
  | .FLOAT => "Convert Image to 32 bit floating point"

/-- The loop over `all_drawables`: `list` is the part of the list still to be
processed and `nth_drawable` the loop counter. -/
def convert_drawables (precision : GimpPrecision) (progress : Bool)
    (n_drawables : Int) : List GimpDrawable → Int → Env → Env
  | [], _, w => w
  | drawable :: list, nth_drawable, w =>
      let w := w.call
        (.gimp_drawable_convert_type drawable drawable.base_type precision true)
      let w := if progress
        then w.call (.gimp_progress_set_value nth_drawable n_drawables)
        else w
      convert_drawables precision progress n_drawables list (nth_drawable + 1) w

/-- The block that converts the selection mask. -/
def convert_mask (w : Env) : Env :=
  let old_buffer := w.image.mask_buffer
  let w := w.call .gimp_image_undo_push_mask_precision
  let rect : GeglRectangle := ⟨0, 0, w.image.width, w.image.height⟩
  let format := gimp_image_get_mask_format w.image
  let w := w.call (.gimp_gegl_buffer_new rect format)
  let buffer : GeglBuffer := ⟨rect, format⟩
  let w := w.call (.gegl_buffer_copy old_buffer buffer)
  let w := w.call (.gimp_drawable_set_buffer false buffer)
  { w with image := { w.image with mask_buffer := buffer } }

/-- Source: `gimp_image_convert_precision`. `progress` tells whether the caller
passed a progress object. A failed `g_return_if_fail` returns at once. The
lists are taken to be shorter than `G_MAXINT`, so the counters do not
overflow. -/
def gimp_image_convert_precision (w : Env) (precision : GimpPrecision)
    (progress : Bool) : Env :=
  if ¬ (precision ≠ w.image.precision) then w
  else if ¬ (precision = .U8 ∨ w.image.base_type ≠ .INDEXED) then w
  else
    let all_drawables := w.image.layers ++ w.image.channels
    let n_drawables : Int := all_drawables.length
    let undo_desc := undo_desc precision
    let w := if progress then w.call (.gimp_progress_start undo_desc false) else w
    let w := w.call .g_object_freeze_notify
    let w := w.call (.gimp_image_undo_group_start .GROUP_IMAGE_CONVERT undo_desc)
    let w := w.call (.gimp_image_undo_push_image_precision w.image.precision)
    let w := { w.call (.g_object_set_precision precision) with
               image := { w.image with precision := precision } }
    let w := convert_drawables precision progress n_drawables all_drawables 0 w
    let w := convert_mask w
    let w := w.call .gimp_image_undo_group_end
    let w := w.call .gimp_image_precision_changed
    let w := w.call .g_object_thaw_notify
    if progress then w.call .gimp_progress_end else w

/-! ## Auxiliary definitions for the proofs -/

/-- The accumulation step of the inner loop without the range checks. -/
def accumulate (s : SampleState) (px : Pixel) : SampleState :=
  ⟨s.count + 1, s.avg_red + of_guchar px.red, s.avg_green + of_guchar px.green,
   s.avg_blue + of_guchar px.blue, s.avg_alpha + of_guchar px.alpha, px⟩

/-- The counter and the four accumulators are non-negative `gint`s. -/
def SampleState.in_range (s : SampleState) : Prop :=
  (0 ≤ s.count ∧ s.count ≤ G_MAXINT) ∧ (0 ≤ s.avg_red ∧ s.avg_red ≤ G_MAXINT) ∧
  (0 ≤ s.avg_green ∧ s.avg_green ≤ G_MAXINT) ∧ (0 ≤ s.avg_blue ∧ s.avg_blue ≤ G_MAXINT) ∧
  (0 ≤ s.avg_alpha ∧ s.avg_alpha ≤ G_MAXINT)

instance (s : SampleState) : Decidable s.in_range := by
  unfold SampleState.in_range; exact inferInstance

/-- The accumulated state when it is in range, a signed overflow otherwise. -/
def checked (s : SampleState) : Except Fault SampleState :=
  if s.in_range then .ok s else .error .signed_overflow

/-- Sum of one channel over a list of pixels. -/
def channel_total (c : Pixel → guchar) (l : List Pixel) : Nat :=
  (l.map (fun px => (c px).val)).sum

/-- The pixels that the inner loop reads with success at column `i`, for `n`
rows from `lo` on. -/
def column_pixels (pickable : GimpPickable) (format : Option Babl) (i : Int)
    (n : Nat) (lo : Int) : List Pixel :=
  (consecutive n lo).filterMap (fun j => gimp_pickable_get_pixel_at pickable i j format)

/-- The pixels that the two loops read with success, for `m` columns from
`lo_i` on and `n` rows from `lo_j` on. -/
def square_pixels (pickable : GimpPickable) (format : Option Babl)
    (m : Nat) (lo_i : Int) (n : Nat) (lo_j : Int) : List Pixel :=
  (consecutive m lo_i).flatMap (fun i => column_pixels pickable format i n lo_j)

/-- Specification side: the count and, for each channel, the sum plus half the
count are representable as `gint`. -/
def averaging_fits (pickable : GimpPickable) (x y r : Int) : Prop :=
  (sampled_count pickable x y r : Int) ≤ G_MAXINT ∧
  ((channel_sum Pixel.red pickable x y r + sampled_count pickable x y r / 2 : Nat) : Int)
    ≤ G_MAXINT ∧
  ((channel_sum Pixel.green pickable x y r + sampled_count pickable x y r / 2 : Nat) : Int)
    ≤ G_MAXINT ∧
  ((channel_sum Pixel.blue pickable x y r + sampled_count pickable x y r / 2 : Nat) : Int)
    ≤ G_MAXINT ∧
  ((channel_sum Pixel.alpha pickable x y r + sampled_count pickable x y r / 2 : Nat) : Int)
    ≤ G_MAXINT

instance (pickable : GimpPickable) (x y r : Int) :
    Decidable (averaging_fits pickable x y r) := by
  unfold averaging_fits; exact inferInstance

/-! ## The calls of a conversion -/

/-- Specification side: the calls a run adds to the log. -/
def new_calls (w : Env) (precision : GimpPrecision) (progress : Bool) : List Call :=
  (gimp_image_convert_precision w precision progress).log.drop w.log.length

/-- Specification side: the two preconditions on the requested precision. -/
def valid_request (image : GimpImage) (precision : GimpPrecision) : Prop :=
  precision ≠ image.precision ∧ (precision = .U8 ∨ image.base_type ≠ .INDEXED)

instance (image : GimpImage) (precision : GimpPrecision) :
    Decidable (valid_request image precision) := by
  unfold valid_request; exact inferInstance

/-- Specification side: a call to the progress sink. -/
def Call.is_progress : Call → Bool
  | .gimp_progress_start _ _ => true
  | .gimp_progress_set_value _ _ => true
  | .gimp_progress_end => true
  | _ => false

/-- Specification side: a call that pushes an undo step. -/
def Call.is_undo_step : Call → Bool
  | .gimp_image_undo_push_image_precision _ => true
  | .gimp_drawable_convert_type _ _ _ push_undo => push_undo
  | .gimp_image_undo_push_mask_precision => true
  | .gimp_drawable_set_buffer push_undo _ => push_undo
  | _ => false

/-- Specification side: a call that opens or closes an undo group. -/
def Call.is_group_bracket : Call → Bool
  | .gimp_image_undo_group_start _ _ => true
  | .gimp_image_undo_group_end => true
  | _ => false

/-- Specification side: a call to the notification system of the image. -/
def Call.is_notification : Call → Bool
  | .g_object_freeze_notify => true
  | .g_object_thaw_notify => true
  | .gimp_image_precision_changed => true
  | _ => false

/-- Specification side: the operands of the quotients passed to
`gimp_progress_set_value`, in the order of the calls. -/
def progress_operands (calls : List Call) : List (Int × Int) :=
  calls.filterMap (fun c => match c with
    | .gimp_progress_set_value a b => some (a, b)
    | _ => none)

/-- Specification side: the values passed to `gimp_progress_set_value`, each
taken as the exact quotient of its operands. -/
def progress_values (calls : List Call) : List ℚ :=
  (progress_operands calls).map (fun p => (p.1 : ℚ) / (p.2 : ℚ))

/-- The calls of the loop over the drawables. -/
def drawable_calls (precision : GimpPrecision) (progress : Bool) (n_drawables : Int) :
    List GimpDrawable → Int → List Call
  | [], _ => []
  | d :: l, k =>
      .gimp_drawable_convert_type d d.base_type precision true ::
        ((if progress then [.gimp_progress_set_value k n_drawables] else []) ++
          drawable_calls precision progress n_drawables l (k + 1))

/-- The buffer the mask receives. -/
def new_mask_buffer (image : GimpImage) (precision : GimpPrecision) : GeglBuffer :=
  ⟨⟨0, 0, image.width, image.height⟩, ⟨precision⟩⟩

/-- The calls made before the loop. -/
def prologue_calls (image : GimpImage) (precision : GimpPrecision) (progress : Bool) :
    List Call :=
  (if progress then [.gimp_progress_start (undo_desc precision) false] else []) ++
    [.g_object_freeze_notify,
     .gimp_image_undo_group_start .GROUP_IMAGE_CONVERT (undo_desc precision),
     .gimp_image_undo_push_image_precision image.precision,
     .g_object_set_precision precision]

/-- The calls of the mask block. -/
def mask_calls (image : GimpImage) (precision : GimpPrecision) : List Call :=
  [.gimp_image_undo_push_mask_precision,
   .gimp_gegl_buffer_new ⟨0, 0, image.width, image.height⟩ ⟨precision⟩,
   .gegl_buffer_copy image.mask_buffer (new_mask_buffer image precision),
   .gimp_drawable_set_buffer false (new_mask_buffer image precision)]

/-- The calls made after the mask block. -/
def epilogue_calls (progress : Bool) : List Call :=
  [.gimp_image_undo_group_end, .gimp_image_precision_changed, .g_object_thaw_notify] ++
    (if progress then [.gimp_progress_end] else [])

/-- All the calls of a run that passes the preconditions. -/
def conversion_calls (image : GimpImage) (precision : GimpPrecision) (progress : Bool) :
    List Call :=
  prologue_calls image precision progress ++
    drawable_calls precision progress ((image.layers ++ image.channels).length : Int)
      (image.layers ++ image.channels) 0 ++
    mask_calls image precision ++ epilogue_calls progress

/-- Specification side: the conversions requested of the drawables, in the
order of the calls: the drawable, the base type, the precision and the
`push_undo` flag passed to `gimp_drawable_convert_type`. -/
def conversion_requests (calls : List Call) :
    List (GimpDrawable × GimpImageBaseType × GimpPrecision × Bool) :=
  calls.filterMap (fun c => match c with
    | .gimp_drawable_convert_type d t p u => some (d, t, p, u)
    | _ => none)

/-- Specification side: the precisions recorded by the pushes of the image
precision, in the order of the calls. -/
def pushed_image_precisions (calls : List Call) : List GimpPrecision :=
  calls.filterMap (fun c => match c with
    | .gimp_image_undo_push_image_precision p => some p
    | _ => none)

/-- Specification side: a call that sets the precision attribute of the image. -/
def Call.is_precision_set : Call → Bool
  | .g_object_set_precision _ => true
  | _ => false

/-- Specification side: a call of the block that converts the selection mask. -/
def Call.is_mask_step : Call → Bool
  | .gimp_image_undo_push_mask_precision => true
  | .gimp_gegl_buffer_new _ _ => true
  | .gegl_buffer_copy _ _ => true
  | .gimp_drawable_set_buffer _ _ => true
  | _ => false

/-- Specification side: the four channels, each with the accumulator that sums
it and the component of the colour that receives its average. -/
def color_channels : List ((Pixel → guchar) × (SampleState → Int) × (GimpRGB → guchar)) :=
  [(Pixel.red, SampleState.avg_red, GimpRGB.r),
   (Pixel.green, SampleState.avg_green, GimpRGB.g),
   (Pixel.blue, SampleState.avg_blue, GimpRGB.b),
   (Pixel.alpha, SampleState.avg_alpha, GimpRGB.a)]

/-! ## Sample inputs -/

/-- An image without layers and channels. -/
def empty_image : GimpImage :=
  { precision := .U8, base_type := .GRAY, width := 32, height := 16,
    layers := [], channels := [],
    mask_buffer := ⟨⟨0, 0, 32, 16⟩, ⟨.U8⟩⟩ }

/-- An image with three layers and one channel in 32-bit floating point. -/
def sample_image : GimpImage :=
  { precision := .FLOAT, base_type := .RGB, width := 640, height := 480,
    layers := [⟨1, .RGB⟩, ⟨2, .RGB⟩, ⟨3, .RGB⟩], channels := [⟨4, .GRAY⟩],
    mask_buffer := ⟨⟨0, 0, 640, 480⟩, ⟨.FLOAT⟩⟩ }


/-- A white, opaque canvas of 3001 by 3001 pixels in the fixed RGBA format. -/
def canvas : GimpPickable where
  get_format := some (fun _ => some .RGBA_u8)
  get_pixel_at := some
    { inside := fun x y => decide (0 ≤ x ∧ x ≤ 3000 ∧ 0 ≤ y ∧ y ≤ 3000)
      pixel_at := fun _ _ _ => ⟨255, 255, 255, 255⟩ }

/-- A source whose extent is the single white pixel at `(G_MAXINT, 0)`. -/
def far_pixel : GimpPickable where
  get_format := some (fun _ => some .RGBA_u8)
  get_pixel_at := some
    { inside := fun x y => decide (x = 2147483647 ∧ y = 0)
      pixel_at := fun _ _ _ => ⟨255, 255, 255, 255⟩ }

/-- A source of two by two pixels with a palette format as native format. In
the fixed RGBA format the pixel at `(x, y)` is `(10 (x + 2 y) + 5, 0, 3, 255)`;
in the native format its first byte is the palette index `x + 2 y`. -/
def tile : GimpPickable where
  get_format := some (fun _ => some (.other 1 true))
  get_pixel_at := some
    { inside := fun x y => decide (0 ≤ x ∧ x < 2 ∧ 0 ≤ y ∧ y < 2)
      pixel_at := fun x y format =>
        match format with
        | some .RGBA_u8 => ⟨to_guchar (10 * (x + 2 * y) + 5), 0, 3, 255⟩
        | _ => ⟨to_guchar (x + 2 * y), 0, 0, 0⟩ }

/-! ## Properties of `gimp_pickable_pick_color` -/

/-- A miss at the centre ends the call with FALSE and nothing stored. -/
theorem pick_color_of_miss (pickable : GimpPickable) (x y : Int)
    (sample_average : Bool) (average_radius : gdouble) (want_index : Bool)
    (hmiss : gimp_pickable_get_pixel_at pickable x y (some Babl.RGBA_u8) = none) :
    gimp_pickable_pick_color pickable x y sample_average average_radius want_index
      = .ok ⟨false, none, none⟩ := by
  simp only [gimp_pickable_pick_color, hmiss]

/-- The call without averaging on a hit at the centre. -/
theorem pick_color_of_plain (pickable : GimpPickable) (x y : Int)
    (average_radius : gdouble) (want_index : Bool) (px : Pixel)
    (hhit : gimp_pickable_get_pixel_at pickable x y (some Babl.RGBA_u8) = some px) :
    gimp_pickable_pick_color pickable x y false average_radius want_index
      = .ok ⟨true, some ⟨px.red, px.green, px.blue, px.alpha⟩,
             if want_index then some (pick_color_index pickable x y false px)
             else none⟩ := by
  simp only [gimp_pickable_pick_color, hhit, gimp_rgba_set_uchar]
  rfl

/-- C1: when the read of the centre pixel `(x, y)` in the fixed RGBA format
reports a miss, `gimp_pickable_pick_color` returns FALSE and stores neither a
colour nor a colour index, for every averaging flag and every radius (so also
when other pixels of the neighbourhood are inside the extent). -/
theorem pick_color_centre_miss (pickable : GimpPickable) (x y : Int)
    (sample_average : Bool) (average_radius : gdouble) (want_index : Bool)
    (hmiss : gimp_pickable_get_pixel_at pickable x y (some Babl.RGBA_u8) = none) :
    gimp_pickable_pick_color pickable x y sample_average average_radius want_index
      = .ok ⟨false, none, none⟩ :=
  pick_color_of_miss pickable x y sample_average average_radius want_index hmiss

/-- Witness for C1: the centre `(-1, 0)` is outside the two by two source while
its neighbour `(0, 0)` at radius 1 is inside; the averaged pick still fails. -/
theorem pick_color_centre_miss_witness :
    gimp_pickable_get_pixel_at tile (-1) 0 (some Babl.RGBA_u8) = none ∧
    in_extent tile 0 0 = true ∧
    gimp_pickable_pick_color tile (-1) 0 true (.finite 1 0) true
      = .ok ⟨false, none, none⟩ :=
  ⟨by decide, by decide,
   pick_color_centre_miss tile (-1) 0 true (.finite 1 0) true (by decide)⟩

/-- C2: for an in-bounds `(x, y)`, where the read in the fixed RGBA format gives
the four bytes `px`, the call with `sample_average = FALSE` returns TRUE and the
colour it stores is made of exactly those four bytes, whatever the native format
of the source and whatever the radius; the index, when asked for, is the one
the index block computes. -/
theorem pick_color_no_average (pickable : GimpPickable) (x y : Int)
    (average_radius : gdouble) (want_index : Bool) (px : Pixel)
    (hhit : gimp_pickable_get_pixel_at pickable x y (some Babl.RGBA_u8) = some px) :
    gimp_pickable_pick_color pickable x y false average_radius want_index
      = .ok ⟨true, some ⟨px.red, px.green, px.blue, px.alpha⟩,
             if want_index then some (pick_color_index pickable x y false px)
             else none⟩ :=
  pick_color_of_plain pickable x y average_radius want_index px hhit

/-- Witness for C2: the pixel `(1, 1)` of the two by two source, whose native
format is a palette format, picked without averaging. -/
theorem pick_color_no_average_witness :
    gimp_pickable_get_pixel_at tile 1 1 (some Babl.RGBA_u8) = some ⟨35, 0, 3, 255⟩ ∧
    gimp_pickable_pick_color tile 1 1 false .nan false
      = .ok ⟨true, some ⟨35, 0, 3, 255⟩, none⟩ :=
  ⟨by decide, pick_color_no_average tile 1 1 .nan false ⟨35, 0, 3, 255⟩ (by decide)⟩

/-! ## The averaging loops -/

theorem gint_add_ok (a b : Int) (h : is_gint (a + b)) : gint_add a b = .ok (a + b) := by
  simp [gint_add, gint_result, h]

theorem gint_sub_ok (a b : Int) (h : is_gint (a - b)) : gint_sub a b = .ok (a - b) := by
  simp [gint_sub, gint_result, h]

theorem foldl_accumulate_count (l : List Pixel) (s : SampleState) :
    (l.foldl accumulate s).count = s.count + l.length := by
  induction l generalizing s with
  | nil => simp
  | cons px l ih => simp [List.foldl_cons, ih, accumulate]; omega

theorem foldl_accumulate_red (l : List Pixel) (s : SampleState) :
    (l.foldl accumulate s).avg_red = s.avg_red + channel_total Pixel.red l := by
  induction l generalizing s with
  | nil => simp [channel_total]
  | cons px l ih =>
      simp [List.foldl_cons, ih, accumulate, channel_total, of_guchar]; omega

theorem foldl_accumulate_green (l : List Pixel) (s : SampleState) :
    (l.foldl accumulate s).avg_green = s.avg_green + channel_total Pixel.green l := by
  induction l generalizing s with
  | nil => simp [channel_total]
  | cons px l ih =>
      simp [List.foldl_cons, ih, accumulate, channel_total, of_guchar]; omega

theorem foldl_accumulate_blue (l : List Pixel) (s : SampleState) :
    (l.foldl accumulate s).avg_blue = s.avg_blue + channel_total Pixel.blue l := by
  induction l generalizing s with
  | nil => simp [channel_total]
  | cons px l ih =>
      simp [List.foldl_cons, ih, accumulate, channel_total, of_guchar]; omega

theorem foldl_accumulate_alpha (l : List Pixel) (s : SampleState) :
    (l.foldl accumulate s).avg_alpha = s.avg_alpha + channel_total Pixel.alpha l := by
  induction l generalizing s with
  | nil => simp [channel_total]
  | cons px l ih =>
      simp [List.foldl_cons, ih, accumulate, channel_total, of_guchar]; omega

/-- A state on the way to an in-range final state is in range. -/
theorem in_range_of_foldl (l : List Pixel) (s : SampleState) (hs : s.in_range)
    (px : Pixel) (hfin : ((px :: l).foldl accumulate s).in_range) :
    (accumulate s px).in_range := by
  have hc := foldl_accumulate_count l (accumulate s px)
  have hr := foldl_accumulate_red l (accumulate s px)
  have hg := foldl_accumulate_green l (accumulate s px)
  have hb := foldl_accumulate_blue l (accumulate s px)
  have ha := foldl_accumulate_alpha l (accumulate s px)
  simp only [List.foldl_cons] at hfin
  unfold SampleState.in_range at hfin hs ⊢
  have e1 : (accumulate s px).count = s.count + 1 := rfl
  have e2 : (accumulate s px).avg_red = s.avg_red + (px.red.val : Int) := rfl
  have e3 : (accumulate s px).avg_green = s.avg_green + (px.green.val : Int) := rfl
  have e4 : (accumulate s px).avg_blue = s.avg_blue + (px.blue.val : Int) := rfl
  have e5 : (accumulate s px).avg_alpha = s.avg_alpha + (px.alpha.val : Int) := rfl
  omega

/-- A state that is out of range stays out of range. -/
theorem not_in_range_foldl (l : List Pixel) (s : SampleState) (hs : s.in_range)
    (px : Pixel) (hacc : ¬ (accumulate s px).in_range) :
    ¬ ((px :: l).foldl accumulate s).in_range :=
  fun hfin => hacc (in_range_of_foldl l s hs px hfin)

theorem channel_total_append (c : Pixel → guchar) (l l2 : List Pixel) :
    channel_total c (l ++ l2) = channel_total c l + channel_total c l2 := by
  simp [channel_total]

/-- The state after a prefix of the pixels is in range when the state after all
of them is. -/
theorem in_range_of_append (l l2 : List Pixel) (s : SampleState) (hs : s.in_range)
    (hfin : ((l ++ l2).foldl accumulate s).in_range) :
    (l.foldl accumulate s).in_range := by
  unfold SampleState.in_range at hfin hs ⊢
  rw [foldl_accumulate_count, foldl_accumulate_red, foldl_accumulate_green,
    foldl_accumulate_blue, foldl_accumulate_alpha] at hfin ⊢
  simp only [channel_total_append, List.length_append] at hfin
  push_cast at hfin
  omega

theorem sample_pixel_miss (pickable : GimpPickable) (format : Option Babl) (i j : Int)
    (s : SampleState) (h : gimp_pickable_get_pixel_at pickable i j format = none) :
    sample_pixel pickable format i j s = .ok s := by
  simp [sample_pixel, h]

theorem sample_pixel_hit (pickable : GimpPickable) (format : Option Babl) (i j : Int)
    (s : SampleState) (px : Pixel)
    (h : gimp_pickable_get_pixel_at pickable i j format = some px)
    (hs : s.in_range) :
    sample_pixel pickable format i j s = checked (accumulate s px) := by
  unfold SampleState.in_range at hs
  have g : G_MININT ≤ 0 := by decide
  have b1 := px.red.isLt
  have b2 := px.green.isLt
  have b3 := px.blue.isLt
  have b4 := px.alpha.isLt
  simp only [sample_pixel, h, checked, SampleState.in_range, accumulate, gint_add,
    gint_result, is_gint, of_guchar, bind, Except.bind]
  split_ifs <;> first | rfl | (exfalso; omega)

theorem for_gint_sample_pixel (pickable : GimpPickable) (format : Option Babl) (i : Int)
    (n : Nat) (lo : Int) (s : SampleState)
    (hlo : G_MININT ≤ lo) (hhi : lo + n ≤ G_MAXINT) (hs : s.in_range) :
    for_gint (sample_pixel pickable format i) n lo s
      = checked ((column_pixels pickable format i n lo).foldl accumulate s) := by
  induction n generalizing lo s with
  | zero => simp [for_gint, column_pixels, consecutive, checked, hs]
  | succ n ih =>
      have hv : gint_add lo 1 = .ok (lo + 1) :=
        gint_add_ok _ _ ⟨by omega, by push_cast at hhi; omega⟩
      simp only [for_gint]
      cases hread : gimp_pickable_get_pixel_at pickable i lo format with
      | none =>
          have hcol : column_pixels pickable format i (n + 1) lo
              = column_pixels pickable format i n (lo + 1) := by
            simp [column_pixels, consecutive, hread]
          rw [sample_pixel_miss _ _ _ _ _ hread, hv, hcol]
          exact ih (lo + 1) s (by omega) (by push_cast at hhi; omega) hs
      | some px =>
          have hcol : column_pixels pickable format i (n + 1) lo
              = px :: column_pixels pickable format i n (lo + 1) := by
            simp [column_pixels, consecutive, hread]
          rw [hcol, sample_pixel_hit _ _ _ _ _ px hread hs]
          by_cases hacc : (accumulate s px).in_range
          · simp only [checked, hacc, if_true, hv]
            exact ih (lo + 1) (accumulate s px) (by omega) (by push_cast at hhi; omega) hacc
          · have hfin := not_in_range_foldl
              (column_pixels pickable format i n (lo + 1)) s hs px hacc
            simp only [checked, hacc, hfin, if_false]

theorem sample_column_eq (pickable : GimpPickable) (format : Option Babl)
    (y radius i : Int) (s : SampleState)
    (hlo : is_gint (y - radius)) (hhi : is_gint (y + radius))
    (hend : (y - radius) + trip_count (y - radius) (y + radius) ≤ G_MAXINT)
    (hs : s.in_range) :
    sample_column pickable format y radius i s
      = checked ((column_pixels pickable format i
          (trip_count (y - radius) (y + radius)) (y - radius)).foldl accumulate s) := by
  simp only [sample_column, gint_sub_ok _ _ hlo, gint_add_ok _ _ hhi]
  exact for_gint_sample_pixel pickable format i _ _ s hlo.1 hend hs

theorem for_gint_sample_column (pickable : GimpPickable) (format : Option Babl)
    (y radius : Int) (m : Nat) (lo : Int) (s : SampleState)
    (hylo : is_gint (y - radius)) (hyhi : is_gint (y + radius))
    (hyend : (y - radius) + trip_count (y - radius) (y + radius) ≤ G_MAXINT)
    (hlo : G_MININT ≤ lo) (hhi : lo + m ≤ G_MAXINT) (hs : s.in_range) :
    for_gint (sample_column pickable format y radius) m lo s
      = checked ((square_pixels pickable format m lo
          (trip_count (y - radius) (y + radius)) (y - radius)).foldl accumulate s) := by
  induction m generalizing lo s with
  | zero => simp [for_gint, square_pixels, consecutive, checked, hs]
  | succ m ih =>
      have hv : gint_add lo 1 = .ok (lo + 1) :=
        gint_add_ok _ _ ⟨by omega, by push_cast at hhi; omega⟩
      have hsq : square_pixels pickable format (m + 1) lo
            (trip_count (y - radius) (y + radius)) (y - radius)
          = column_pixels pickable format lo
              (trip_count (y - radius) (y + radius)) (y - radius)
            ++ square_pixels pickable format m (lo + 1)
              (trip_count (y - radius) (y + radius)) (y - radius) := by
        simp [square_pixels, consecutive]
      simp only [for_gint]
      rw [hsq, sample_column_eq pickable format y radius lo s hylo hyhi hyend hs,
        List.foldl_append]
      by_cases hcol : ((column_pixels pickable format lo
          (trip_count (y - radius) (y + radius)) (y - radius)).foldl accumulate s).in_range
      · simp only [checked, hcol, if_true, hv]
        exact ih (lo + 1) _ (by omega) (by push_cast at hhi; omega) hcol
      · have hfin : ¬ ((square_pixels pickable format m (lo + 1)
            (trip_count (y - radius) (y + radius)) (y - radius)).foldl accumulate
            ((column_pixels pickable format lo
              (trip_count (y - radius) (y + radius)) (y - radius)).foldl accumulate s)).in_range := by
          intro h
          rw [← List.foldl_append] at h
          exact hcol (in_range_of_append _ _ s hs h)
        simp only [checked, hcol, hfin, if_false]

/-- The pixels the two loops accumulate are the in-extent pixels of the
neighbourhood, in the order of the specification. -/
theorem square_pixels_eq_sampled (pickable : GimpPickable) (x y r : Int) :
    square_pixels pickable (some Babl.RGBA_u8) (trip_count (x - r) (x + r)) (x - r)
        (trip_count (y - r) (y + r)) (y - r)
      = sampled_pixels pickable x y r := by
  simp [square_pixels, sampled_pixels, neighbourhood, closed_range, column_pixels,
    List.filterMap_flatMap, List.filterMap_map, Function.comp_def]

theorem trip_count_symm (x r : Int) (hr : 0 ≤ r) :
    ((trip_count (x - r) (x + r) : Nat) : Int) = 2 * r + 1 := by
  unfold trip_count
  rw [Int.toNat_of_nonneg (by omega)]; omega

theorem sample_square_eq (pickable : GimpPickable) (x y r : Int) (s : SampleState)
    (hr : 0 ≤ r)
    (hx : G_MININT ≤ x - r ∧ x + r < G_MAXINT)
    (hy : G_MININT ≤ y - r ∧ y + r < G_MAXINT) (hs : s.in_range) :
    sample_square pickable (some Babl.RGBA_u8) x y r s
      = checked ((sampled_pixels pickable x y r).foldl accumulate s) := by
  have tx := trip_count_symm x r hr
  have ty := trip_count_symm y r hr
  have hxlo : is_gint (x - r) := ⟨hx.1, by omega⟩
  have hxhi : is_gint (x + r) := ⟨by omega, by omega⟩
  have hylo : is_gint (y - r) := ⟨hy.1, by omega⟩
  have hyhi : is_gint (y + r) := ⟨by omega, by omega⟩
  simp only [sample_square, gint_sub_ok _ _ hxlo, gint_add_ok _ _ hxhi]
  rw [← square_pixels_eq_sampled]
  exact for_gint_sample_column pickable _ y r _ _ s hylo hyhi (by omega) hx.1 (by omega) hs

theorem to_guchar_val (q : Nat) (h : q < 256) : (to_guchar (q : Int)).val = q := by
  simp only [to_guchar]
  omega

theorem rounded_average_eq (sum count : Nat) (hcount : 1 ≤ count)
    (hfit : ((sum + count / 2 : Nat) : Int) ≤ G_MAXINT) :
    rounded_average (sum : Int) (count : Int)
      = .ok (to_guchar ((round_half_up sum count : Nat) : Int)) := by
  have g : G_MININT ≤ 0 := by decide
  have h2 : Int.tdiv (count : Int) 2 = ((count / 2 : Nat) : Int) := by
    rw [Int.tdiv_eq_ediv (by omega) (by omega)]; norm_cast
  have h3 : Int.tdiv ((sum : Int) + ((count / 2 : Nat) : Int)) (count : Int)
      = ((round_half_up sum count : Nat) : Int) := by
    rw [Int.tdiv_eq_ediv (by omega) (by omega)]; unfold round_half_up; norm_cast
  have hle : round_half_up sum count ≤ sum + count / 2 := Nat.div_le_self _ _
  have hne : ¬ ((count : Int) = 0) := by omega
  simp only [rounded_average, gint_div, gint_add, gint_result, is_gint, bind, Except.bind,
    h2, h3, hne, if_false]
  have c1 : G_MININT ≤ ((count / 2 : Nat) : Int) ∧ ((count / 2 : Nat) : Int) ≤ G_MAXINT := by
    constructor <;> omega
  have c2 : G_MININT ≤ (sum : Int) + ((count / 2 : Nat) : Int) ∧
      (sum : Int) + ((count / 2 : Nat) : Int) ≤ G_MAXINT := by
    constructor
    · omega
    · push_cast at hfit; omega
  have c3 : G_MININT ≤ ((round_half_up sum count : Nat) : Int) ∧
      ((round_half_up sum count : Nat) : Int) ≤ G_MAXINT := by
    constructor
    · omega
    · push_cast at hfit; omega
  rw [if_neg (by decide : ¬ ((2 : Int) = 0)), if_pos c1]
  simp only []
  rw [if_pos c2]
  simp only []
  rw [h3, if_pos c3]

theorem channel_total_le (c : Pixel → guchar) (l : List Pixel) :
    channel_total c l ≤ 255 * l.length := by
  induction l with
  | nil => simp [channel_total]
  | cons px l ih =>
      have := (c px).isLt
      simp only [channel_total, List.map_cons, List.sum_cons, List.length_cons] at ih ⊢
      omega

theorem round_half_up_le (sum count : Nat) (hcount : 1 ≤ count) (h : sum ≤ 255 * count) :
    round_half_up sum count ≤ 255 := by
  unfold round_half_up
  have : sum + count / 2 < 256 * count := by omega
  have := (Nat.div_lt_iff_lt_mul (by omega : 0 < count)).2 this
  omega

theorem mem_consecutive (n : Nat) (lo v : Int) :
    v ∈ consecutive n lo ↔ lo ≤ v ∧ v < lo + n := by
  induction n generalizing lo with
  | zero => simp [consecutive]
  | succ n ih => simp [consecutive, ih]; omega

/-- The list `closed_range lo hi` holds exactly the integers from `lo` to `hi`. -/
theorem mem_closed_range (lo hi v : Int) : v ∈ closed_range lo hi ↔ lo ≤ v ∧ v ≤ hi := by
  unfold closed_range trip_count
  rw [mem_consecutive]
  omega

/-- The list `neighbourhood x y r` holds exactly the coordinates of the square
`[x - r, x + r] × [y - r, y + r]`. -/
theorem mem_neighbourhood (x y r i j : Int) :
    (i, j) ∈ neighbourhood x y r ↔
      (x - r ≤ i ∧ i ≤ x + r) ∧ (y - r ≤ j ∧ j ≤ y + r) := by
  simp [neighbourhood, mem_closed_range]

theorem consecutive_nodup (n : Nat) (lo : Int) : (consecutive n lo).Nodup := by
  induction n generalizing lo with
  | zero => simp [consecutive]
  | succ n ih =>
      simp only [consecutive, List.nodup_cons]
      refine ⟨?_, ih _⟩
      rw [mem_consecutive]; omega

/-- No coordinate occurs twice in `neighbourhood x y r`. -/
theorem neighbourhood_nodup (x y r : Int) : (neighbourhood x y r).Nodup := by
  unfold neighbourhood closed_range
  rw [List.nodup_flatMap]
  refine ⟨fun i _ => (consecutive_nodup _ _).map ?_, ?_⟩
  · intro a b h; simpa using h
  · refine List.Pairwise.imp ?_ (consecutive_nodup _ _)
    intro a b hab
    simp only [Function.onFun, List.disjoint_left, List.mem_map, not_exists, not_and]
    rintro c ⟨j, _, rfl⟩ j2 _ h
    simp only [Prod.mk.injEq] at h
    exact hab h.1.symm

theorem sampled_count_pos (pickable : GimpPickable) (x y r : Int) (centre : Pixel)
    (hcentre : gimp_pickable_get_pixel_at pickable x y (some Babl.RGBA_u8) = some centre)
    (hr : 0 ≤ r) : 1 ≤ sampled_count pickable x y r := by
  have hmem : centre ∈ sampled_pixels pickable x y r := by
    unfold sampled_pixels
    rw [List.mem_filterMap]
    exact ⟨(x, y), (mem_neighbourhood x y r x y).2 ⟨⟨by omega, by omega⟩, by omega, by omega⟩,
      hcentre⟩
  exact List.length_pos_of_mem hmem

theorem average_pixel_eq (pickable : GimpPickable) (x y : Int) (average_radius : gdouble)
    (r : Int) (centre : Pixel)
    (hcentre : gimp_pickable_get_pixel_at pickable x y (some Babl.RGBA_u8) = some centre)
    (hrad : gdouble_to_gint average_radius = .ok r) (hr : 0 ≤ r)
    (hx : G_MININT ≤ x - r ∧ x + r < G_MAXINT)
    (hy : G_MININT ≤ y - r ∧ y + r < G_MAXINT)
    (hfit : averaging_fits pickable x y r) :
    average_pixel pickable (some Babl.RGBA_u8) x y average_radius centre
      = .ok ⟨to_guchar (round_half_up (channel_sum Pixel.red pickable x y r)
                (sampled_count pickable x y r) : Nat),
             to_guchar (round_half_up (channel_sum Pixel.green pickable x y r)
                (sampled_count pickable x y r) : Nat),
             to_guchar (round_half_up (channel_sum Pixel.blue pickable x y r)
                (sampled_count pickable x y r) : Nat),
             to_guchar (round_half_up (channel_sum Pixel.alpha pickable x y r)
                (sampled_count pickable x y r) : Nat)⟩ := by
  have hpos := sampled_count_pos pickable x y r centre hcentre hr
  have hs0 : (⟨0, 0, 0, 0, 0, centre⟩ : SampleState).in_range := by
    have g : (0 : Int) ≤ G_MAXINT := by decide
    exact ⟨⟨le_refl _, g⟩, ⟨le_refl _, g⟩, ⟨le_refl _, g⟩, ⟨le_refl _, g⟩, ⟨le_refl _, g⟩⟩
  obtain ⟨f0, f1, f2, f3, f4⟩ := hfit
  have hc : ((sampled_pixels pickable x y r).foldl accumulate ⟨0, 0, 0, 0, 0, centre⟩).count
      = (sampled_count pickable x y r : Int) :=
    (foldl_accumulate_count _ _).trans (Int.zero_add _)
  have h1 : ((sampled_pixels pickable x y r).foldl accumulate ⟨0, 0, 0, 0, 0, centre⟩).avg_red
      = (channel_sum Pixel.red pickable x y r : Int) :=
    (foldl_accumulate_red _ _).trans (Int.zero_add _)
  have h2 : ((sampled_pixels pickable x y r).foldl accumulate ⟨0, 0, 0, 0, 0, centre⟩).avg_green
      = (channel_sum Pixel.green pickable x y r : Int) :=
    (foldl_accumulate_green _ _).trans (Int.zero_add _)
  have h3 : ((sampled_pixels pickable x y r).foldl accumulate ⟨0, 0, 0, 0, 0, centre⟩).avg_blue
      = (channel_sum Pixel.blue pickable x y r : Int) :=
    (foldl_accumulate_blue _ _).trans (Int.zero_add _)
  have h4 : ((sampled_pixels pickable x y r).foldl accumulate ⟨0, 0, 0, 0, 0, centre⟩).avg_alpha
      = (channel_sum Pixel.alpha pickable x y r : Int) :=
    (foldl_accumulate_alpha _ _).trans (Int.zero_add _)
  have hfin : ((sampled_pixels pickable x y r).foldl accumulate
      ⟨0, 0, 0, 0, 0, centre⟩).in_range := by
    unfold SampleState.in_range
    rw [hc, h1, h2, h3, h4]
    omega
  simp only [average_pixel, hrad, bind, Except.bind,
    sample_square_eq pickable x y r _ hr hx hy hs0, checked, hfin, if_true, hc, h1, h2, h3, h4]
  rw [rounded_average_eq _ _ hpos f1, rounded_average_eq _ _ hpos f2,
    rounded_average_eq _ _ hpos f3, rounded_average_eq _ _ hpos f4]

theorem pick_color_index_average (pickable : GimpPickable) (x y : Int) (pixel : Pixel) :
    pick_color_index pickable x y true pixel = -1 := by
  simp [pick_color_index]

theorem length_consecutive (n : Nat) (lo : Int) : (consecutive n lo).length = n := by
  induction n generalizing lo with
  | zero => rfl
  | succ n ih => simp [consecutive, ih]

theorem length_neighbourhood (x y r : Int) :
    (neighbourhood x y r).length
      = trip_count (x - r) (x + r) * trip_count (y - r) (y + r) := by
  have key : ∀ (l : List Int) (l2 : List Int),
      (l.flatMap (fun i => l2.map (fun j => (i, j)))).length = l.length * l2.length := by
    intro l l2
    induction l with
    | nil => simp
    | cons a l ih =>
        rw [List.flatMap_cons, List.length_append, ih, List.length_map, List.length_cons]
        ring
  unfold neighbourhood closed_range
  rw [key, length_consecutive, length_consecutive]

theorem filterMap_eq_replicate {α β : Type} (f : α → Option β) (b : β) (l : List α)
    (h : ∀ a ∈ l, f a = some b) : l.filterMap f = List.replicate l.length b := by
  induction l with
  | nil => rfl
  | cons a l ih =>
      rw [List.filterMap_cons_some (h a (List.mem_cons_self a l)),
        ih (fun c hc => h c (List.mem_cons_of_mem a hc))]
      rfl

theorem channel_total_replicate (c : Pixel → guchar) (n : Nat) (px : Pixel) :
    channel_total c (List.replicate n px) = n * (c px).val := by
  simp [channel_total]

theorem canvas_sampled :
    sampled_pixels canvas 1500 1500 1500 = List.replicate 9006001 ⟨255, 255, 255, 255⟩ := by
  have hlen : (neighbourhood 1500 1500 1500).length = 9006001 := by
    rw [length_neighbourhood]; decide
  have h : ∀ c ∈ neighbourhood 1500 1500 1500,
      gimp_pickable_get_pixel_at canvas c.1 c.2 (some Babl.RGBA_u8)
        = some ⟨255, 255, 255, 255⟩ := by
    rintro ⟨i, j⟩ hc
    rw [mem_neighbourhood] at hc
    have hin : (0 ≤ i ∧ i ≤ 3000 ∧ 0 ≤ j ∧ j ≤ 3000) := by omega
    simp [gimp_pickable_get_pixel_at, canvas, PixelSource.read, hin]
  unfold sampled_pixels
  rw [filterMap_eq_replicate _ _ _ h, hlen]

/-- When the red channel of the in-extent pixels sums to more than `G_MAXINT`,
the accumulation overflows. -/
theorem pick_color_red_overflow (pickable : GimpPickable) (x y : Int)
    (average_radius : gdouble) (want_index : Bool) (r : Int) (centre : Pixel)
    (hcentre : gimp_pickable_get_pixel_at pickable x y (some Babl.RGBA_u8) = some centre)
    (hrad : gdouble_to_gint average_radius = .ok r) (hr : 0 ≤ r)
    (hx : G_MININT ≤ x - r ∧ x + r < G_MAXINT)
    (hy : G_MININT ≤ y - r ∧ y + r < G_MAXINT)
    (hbig : G_MAXINT < (channel_sum Pixel.red pickable x y r : Int)) :
    gimp_pickable_pick_color pickable x y true average_radius want_index
      = .error .signed_overflow := by
  have hs0 : (⟨0, 0, 0, 0, 0, centre⟩ : SampleState).in_range := by
    have g : (0 : Int) ≤ G_MAXINT := by decide
    exact ⟨⟨le_refl _, g⟩, ⟨le_refl _, g⟩, ⟨le_refl _, g⟩, ⟨le_refl _, g⟩, ⟨le_refl _, g⟩⟩
  have h1 : ((sampled_pixels pickable x y r).foldl accumulate ⟨0, 0, 0, 0, 0, centre⟩).avg_red
      = (channel_sum Pixel.red pickable x y r : Int) :=
    (foldl_accumulate_red _ _).trans (Int.zero_add _)
  have hnot : ¬ ((sampled_pixels pickable x y r).foldl accumulate
      ⟨0, 0, 0, 0, 0, centre⟩).in_range := by
    intro h
    have h2 := h.2.1.2
    rw [h1] at h2
    omega
  simp only [gimp_pickable_pick_color, hcentre, if_true, average_pixel, hrad, bind, Except.bind,
    sample_square_eq pickable x y r _ hr hx hy hs0, checked, hnot, if_false]

/-! ## The averaging rule -/

/-- The count is the number of coordinates of the neighbourhood that are inside
the extent. -/
theorem sampled_count_eq_filter (pickable : GimpPickable) (x y r : Int) :
    sampled_count pickable x y r
      = ((neighbourhood x y r).filter (fun c => in_extent pickable c.1 c.2)).length := by
  unfold sampled_count sampled_pixels in_extent
  induction neighbourhood x y r with
  | nil => rfl
  | cons c l ih =>
      cases h : gimp_pickable_get_pixel_at pickable c.1 c.2 (some Babl.RGBA_u8) with
      | none => simp [List.filterMap_cons, h, ih]
      | some px => simp [List.filterMap_cons, h, ih]


/-- The averaging branch under the representability conditions. -/
theorem pick_color_of_average (pickable : GimpPickable) (x y : Int)
    (average_radius : gdouble) (want_index : Bool) (r : Int) (centre : Pixel)
    (hcentre : gimp_pickable_get_pixel_at pickable x y (some Babl.RGBA_u8) = some centre)
    (hrad : gdouble_to_gint average_radius = .ok r) (hr : 0 ≤ r)
    (hx : G_MININT ≤ x - r ∧ x + r < G_MAXINT)
    (hy : G_MININT ≤ y - r ∧ y + r < G_MAXINT)
    (hfit : averaging_fits pickable x y r) :
    ∃ color : GimpRGB,
      gimp_pickable_pick_color pickable x y true average_radius want_index
        = .ok ⟨true, some color, if want_index then some (-1) else none⟩ ∧
      color.r.val = round_half_up (channel_sum Pixel.red pickable x y r)
        (sampled_count pickable x y r) ∧
      color.g.val = round_half_up (channel_sum Pixel.green pickable x y r)
        (sampled_count pickable x y r) ∧
      color.b.val = round_half_up (channel_sum Pixel.blue pickable x y r)
        (sampled_count pickable x y r) ∧
      color.a.val = round_half_up (channel_sum Pixel.alpha pickable x y r)
        (sampled_count pickable x y r) := by
  have hpos := sampled_count_pos pickable x y r centre hcentre hr
  have bound : ∀ c : Pixel → guchar,
      round_half_up (channel_sum c pickable x y r) (sampled_count pickable x y r) < 256 := by
    intro c
    have := round_half_up_le (channel_sum c pickable x y r) (sampled_count pickable x y r)
      hpos (channel_total_le c _)
    omega
  refine ⟨⟨to_guchar (round_half_up (channel_sum Pixel.red pickable x y r)
                (sampled_count pickable x y r) : Nat),
           to_guchar (round_half_up (channel_sum Pixel.green pickable x y r)
                (sampled_count pickable x y r) : Nat),
           to_guchar (round_half_up (channel_sum Pixel.blue pickable x y r)
                (sampled_count pickable x y r) : Nat),
           to_guchar (round_half_up (channel_sum Pixel.alpha pickable x y r)
                (sampled_count pickable x y r) : Nat)⟩, ?_,
    to_guchar_val _ (bound _), to_guchar_val _ (bound _), to_guchar_val _ (bound _),
    to_guchar_val _ (bound _)⟩
  simp only [gimp_pickable_pick_color, hcentre, if_true,
    average_pixel_eq pickable x y average_radius r centre hcentre hrad hr hx hy hfit,
    bind, Except.bind, pick_color_index_average, gimp_rgba_set_uchar]

/-- C3 (amended): for an in-bounds centre `(x, y)`, averaging requested, a radius
that truncates to an integer `r ≥ 0`, coordinates `x - r`, `y - r` not below
`G_MININT` and `x + r`, `y + r` below `G_MAXINT`, and a count and channel sums
(plus half the count) that fit in a `gint`: the call returns TRUE and each of the
four channels of the colour equals `floor ((S_c + count / 2) / count)`, where
`count` and `S_c` range over exactly the in-extent pixels of the square
neighbourhood (whose coordinates are the pairs `(i, j)` with `x - r ≤ i ≤ x + r`
and `y - r ≤ j ≤ y + r`, each once); ties round up (sum 5, count 2 gives 3). -/
theorem pick_color_average (pickable : GimpPickable) (x y : Int)
    (average_radius : gdouble) (want_index : Bool) (r : Int) (centre : Pixel)
    (hcentre : gimp_pickable_get_pixel_at pickable x y (some Babl.RGBA_u8) = some centre)
    (hrad : gdouble_to_gint average_radius = .ok r) (hr : 0 ≤ r)
    (hx : G_MININT ≤ x - r ∧ x + r < G_MAXINT)
    (hy : G_MININT ≤ y - r ∧ y + r < G_MAXINT)
    (hfit : averaging_fits pickable x y r) :
    (∀ i j : Int, (i, j) ∈ neighbourhood x y r ↔
      (x - r ≤ i ∧ i ≤ x + r) ∧ (y - r ≤ j ∧ j ≤ y + r)) ∧
    (neighbourhood x y r).Nodup ∧
    sampled_count pickable x y r
      = ((neighbourhood x y r).filter (fun c => in_extent pickable c.1 c.2)).length ∧
    ∃ color : GimpRGB,
      gimp_pickable_pick_color pickable x y true average_radius want_index
        = .ok ⟨true, some color, if want_index then some (-1) else none⟩ ∧
      color.r.val = round_half_up (channel_sum Pixel.red pickable x y r)
        (sampled_count pickable x y r) ∧
      color.g.val = round_half_up (channel_sum Pixel.green pickable x y r)
        (sampled_count pickable x y r) ∧
      color.b.val = round_half_up (channel_sum Pixel.blue pickable x y r)
        (sampled_count pickable x y r) ∧
      color.a.val = round_half_up (channel_sum Pixel.alpha pickable x y r)
        (sampled_count pickable x y r) ∧
      round_half_up 5 2 = 3 := by
  refine ⟨fun i j => mem_neighbourhood x y r i j, neighbourhood_nodup x y r,
    sampled_count_eq_filter pickable x y r, ?_⟩
  obtain ⟨color, h, h1, h2, h3, h4⟩ :=
    pick_color_of_average pickable x y average_radius want_index r centre hcentre hrad hr
      hx hy hfit
  exact ⟨color, h, h1, h2, h3, h4, by decide⟩

/-- Witness for C3 (amended): the corner `(0, 0)` of the two by two source with
radius 1; four of the nine pixels of the neighbourhood are inside. -/
theorem pick_color_average_witness :
    gimp_pickable_get_pixel_at tile 0 0 (some Babl.RGBA_u8) = some ⟨5, 0, 3, 255⟩ ∧
    gdouble_to_gint (.finite 1 0) = .ok 1 ∧
    sampled_count tile 0 0 1 = 4 ∧
    channel_sum Pixel.red tile 0 0 1 = 80 ∧
    (∀ i j : Int, (i, j) ∈ neighbourhood 0 0 1 ↔
      (0 - 1 ≤ i ∧ i ≤ 0 + 1) ∧ (0 - 1 ≤ j ∧ j ≤ 0 + 1)) ∧
    (neighbourhood 0 0 1).Nodup ∧
    sampled_count tile 0 0 1
      = ((neighbourhood 0 0 1).filter (fun c => in_extent tile c.1 c.2)).length ∧
    ∃ color : GimpRGB,
      gimp_pickable_pick_color tile 0 0 true (.finite 1 0) true
        = .ok ⟨true, some color, if true then some (-1) else none⟩ ∧
      color.r.val = round_half_up (channel_sum Pixel.red tile 0 0 1) (sampled_count tile 0 0 1) ∧
      color.g.val = round_half_up (channel_sum Pixel.green tile 0 0 1) (sampled_count tile 0 0 1) ∧
      color.b.val = round_half_up (channel_sum Pixel.blue tile 0 0 1) (sampled_count tile 0 0 1) ∧
      color.a.val = round_half_up (channel_sum Pixel.alpha tile 0 0 1) (sampled_count tile 0 0 1) ∧
      round_half_up 5 2 = 3 :=
  ⟨by decide, by decide, by decide, by decide,
   pick_color_average tile 0 0 (.finite 1 0) true 1 ⟨5, 0, 3, 255⟩ (by decide) (by decide)
     (by decide) (by decide) (by decide) (by decide)⟩

/-- C3 (counterexample): on the white canvas of 3001 by 3001 pixels, centre
`(1500, 1500)` and radius 1500, the neighbourhood holds 9006001 in-extent pixels
whose red channel sums to 2296530255, more than a `gint` holds; the rule of the
claim gives 255, the accumulation of the code overflows. -/
theorem pick_color_average_overflow :
    gimp_pickable_get_pixel_at canvas 1500 1500 (some Babl.RGBA_u8)
      = some ⟨255, 255, 255, 255⟩ ∧
    gdouble_to_gint (.finite 1500 0) = .ok 1500 ∧
    sampled_count canvas 1500 1500 1500 = 9006001 ∧
    channel_sum Pixel.red canvas 1500 1500 1500 = 2296530255 ∧
    round_half_up 2296530255 9006001 = 255 ∧
    gimp_pickable_pick_color canvas 1500 1500 true (.finite 1500 0) false
      = .error .signed_overflow := by
  have hcentre : gimp_pickable_get_pixel_at canvas 1500 1500 (some Babl.RGBA_u8)
      = some ⟨255, 255, 255, 255⟩ := by decide
  have hrad : gdouble_to_gint (.finite 1500 0) = .ok 1500 := by decide
  have hcount : sampled_count canvas 1500 1500 1500 = 9006001 := by
    unfold sampled_count; rw [canvas_sampled, List.length_replicate]
  have hsum : channel_sum Pixel.red canvas 1500 1500 1500 = 2296530255 := by
    unfold channel_sum
    rw [canvas_sampled]
    exact channel_total_replicate Pixel.red 9006001 ⟨255, 255, 255, 255⟩
  refine ⟨hcentre, hrad, hcount, hsum, by decide, ?_⟩
  refine pick_color_red_overflow canvas 1500 1500 (.finite 1500 0) false 1500 _ hcentre hrad
    (by decide) (by decide) (by decide) ?_
  rw [hsum]
  decide

theorem sampled_pixels_radius_zero (pickable : GimpPickable) (x y : Int) (centre : Pixel)
    (hcentre : gimp_pickable_get_pixel_at pickable x y (some Babl.RGBA_u8) = some centre) :
    sampled_pixels pickable x y 0 = [centre] := by
  have t : ∀ v : Int, trip_count v v = 1 := by
    intro v; unfold trip_count; simp
  simp [sampled_pixels, neighbourhood, closed_range, t, consecutive, hcentre]

theorem round_half_up_one (v : Nat) : round_half_up v 1 = v := by
  simp [round_half_up]

/-- C4 (amended): for an in-bounds centre `(x, y)` with `x` and `y` below
`G_MAXINT` and a radius that truncates to 0, the averaged pick stores exactly
the colour of the pick without averaging: the count is 1, the rounding
`(v + 1 / 2) / 1` is the identity, and the colour is made of the four bytes of
the centre pixel. -/
theorem pick_color_radius_zero (pickable : GimpPickable) (x y : Int)
    (average_radius : gdouble) (want_index : Bool) (centre : Pixel)
    (hcentre : gimp_pickable_get_pixel_at pickable x y (some Babl.RGBA_u8) = some centre)
    (hrad : gdouble_to_gint average_radius = .ok 0)
    (hx : G_MININT ≤ x ∧ x < G_MAXINT) (hy : G_MININT ≤ y ∧ y < G_MAXINT) :
    sampled_count pickable x y 0 = 1 ∧
    (∀ v : Nat, round_half_up v 1 = v) ∧
    gimp_pickable_pick_color pickable x y true average_radius want_index
      = .ok ⟨true, some ⟨centre.red, centre.green, centre.blue, centre.alpha⟩,
             if want_index then some (-1) else none⟩ ∧
    (gimp_pickable_pick_color pickable x y true average_radius want_index).map
        PickResult.color
      = (gimp_pickable_pick_color pickable x y false average_radius want_index).map
        PickResult.color := by
  have hpx := sampled_pixels_radius_zero pickable x y centre hcentre
  have hcount : sampled_count pickable x y 0 = 1 := by
    unfold sampled_count; rw [hpx]; rfl
  have hsum : ∀ c : Pixel → guchar, channel_sum c pickable x y 0 = (c centre).val := by
    intro c; unfold channel_sum; rw [hpx]; simp
  have hfit : averaging_fits pickable x y 0 := by
    unfold averaging_fits
    rw [hcount, hsum, hsum, hsum, hsum]
    have b1 := centre.red.isLt
    have b2 := centre.green.isLt
    have b3 := centre.blue.isLt
    have b4 := centre.alpha.isLt
    have g : G_MAXINT = 2147483647 := rfl
    omega
  obtain ⟨color, hres, h1, h2, h3, h4⟩ :=
    pick_color_of_average pickable x y average_radius want_index 0 centre hcentre hrad
      (le_refl _) (by omega) (by omega) hfit
  rw [hcount, hsum, round_half_up_one] at h1 h2 h3 h4
  have hcolor : color = ⟨centre.red, centre.green, centre.blue, centre.alpha⟩ := by
    cases color
    simp only [GimpRGB.mk.injEq]
    exact ⟨Fin.ext h1, Fin.ext h2, Fin.ext h3, Fin.ext h4⟩
  subst hcolor
  refine ⟨hcount, round_half_up_one, hres, ?_⟩
  rw [hres, pick_color_of_plain pickable x y average_radius want_index centre hcentre]
  rfl

/-- Witness for C4 (amended): the pixel `(1, 0)` of the two by two source and
the radius 0.5, which truncates to 0. -/
theorem pick_color_radius_zero_witness :
    gimp_pickable_get_pixel_at tile 1 0 (some Babl.RGBA_u8) = some ⟨15, 0, 3, 255⟩ ∧
    gdouble_to_gint (.finite 1 (-1)) = .ok 0 ∧
    sampled_count tile 1 0 0 = 1 ∧
    (∀ v : Nat, round_half_up v 1 = v) ∧
    gimp_pickable_pick_color tile 1 0 true (.finite 1 (-1)) true
      = .ok ⟨true, some ⟨15, 0, 3, 255⟩, if true then some (-1) else none⟩ ∧
    (gimp_pickable_pick_color tile 1 0 true (.finite 1 (-1)) true).map PickResult.color
      = (gimp_pickable_pick_color tile 1 0 false (.finite 1 (-1)) true).map
        PickResult.color :=
  ⟨by decide, by decide,
   pick_color_radius_zero tile 1 0 (.finite 1 (-1)) true ⟨15, 0, 3, 255⟩ (by decide)
     (by decide) (by decide) (by decide)⟩

/-- C4 (counterexample): the source whose only pixel sits at `x = G_MAXINT`. The
pick without averaging succeeds; with averaging and radius 0 the loop visits the
centre and then increments the column counter past `G_MAXINT`. -/
theorem pick_color_radius_zero_overflow :
    gimp_pickable_get_pixel_at far_pixel 2147483647 0 (some Babl.RGBA_u8)
      = some ⟨255, 255, 255, 255⟩ ∧
    gdouble_to_gint (.finite 0 0) = .ok 0 ∧
    gimp_pickable_pick_color far_pixel 2147483647 0 false (.finite 0 0) false
      = .ok ⟨true, some ⟨255, 255, 255, 255⟩, none⟩ ∧
    gimp_pickable_pick_color far_pixel 2147483647 0 true (.finite 0 0) false
      = .error .signed_overflow := by
  decide

/-- A negative radius leaves `count` at zero and the first division faults. -/
theorem pick_color_negative_radius (pickable : GimpPickable) (x y : Int)
    (average_radius : gdouble) (want_index : Bool) (r : Int) (centre : Pixel)
    (hcentre : gimp_pickable_get_pixel_at pickable x y (some Babl.RGBA_u8) = some centre)
    (hrad : gdouble_to_gint average_radius = .ok r) (hr : r < 0)
    (hx : is_gint (x - r) ∧ is_gint (x + r)) :
    gimp_pickable_pick_color pickable x y true average_radius want_index
      = .error .division_by_zero := by
  have t : trip_count (x - r) (x + r) = 0 := by
    unfold trip_count; omega
  simp only [gimp_pickable_pick_color, hcentre, if_true, average_pixel, hrad, bind,
    Except.bind, sample_square, gint_sub_ok _ _ hx.1, gint_add_ok _ _ hx.2, t, for_gint]
  rfl

/-- C5 (code at the failing input): the corner `(0, 0)` of the two by two source
is in bounds; with averaging and the radius -1.0 the neighbourhood is empty,
`count` stays 0 and the first of the four divisions divides by zero: the
function neither guards the case nor returns FALSE. -/
theorem pick_color_empty_neighbourhood :
    in_extent tile 0 0 = true ∧
    gdouble_to_gint (.finite (-1) 0) = .ok (-1) ∧
    sampled_count tile 0 0 (-1) = 0 ∧
    gimp_pickable_pick_color tile 0 0 true (.finite (-1) 0) true
      = .error .division_by_zero := by
  decide

/-- C6: for every call that asks for a colour index and returns TRUE, the index
is the first byte of the pixel read at `(x, y)` in the native format of the
source when `sample_average` is FALSE and the native format is a palette
format, and -1 in every other case. -/
theorem pick_color_index_rule (pickable : GimpPickable) (x y : Int)
    (sample_average : Bool) (average_radius : gdouble) (res : PickResult)
    (hok : gimp_pickable_pick_color pickable x y sample_average average_radius true
      = .ok res)
    (hret : res.ret = true) :
    (sample_average = false ∧
        babl_format_is_palette (gimp_pickable_get_format pickable) = true →
      ∃ px, gimp_pickable_get_pixel_at pickable x y (gimp_pickable_get_format pickable)
          = some px ∧ res.color_index = some (of_guchar px.red)) ∧
    (¬ (sample_average = false ∧
        babl_format_is_palette (gimp_pickable_get_format pickable) = true) →
      res.color_index = some (-1)) := by
  cases hcentre : gimp_pickable_get_pixel_at pickable x y (some Babl.RGBA_u8) with
  | none =>
      rw [pick_color_of_miss pickable x y sample_average average_radius true hcentre] at hok
      cases hok
      cases hret
  | some centre =>
      cases sample_average with
      | false =>
          rw [pick_color_of_plain pickable x y average_radius true centre hcentre] at hok
          cases hok
          cases hslot : pickable.get_pixel_at with
          | none => simp [gimp_pickable_get_pixel_at, hslot] at hcentre
          | some source =>
              have hin : source.inside x y = true := by
                simp only [gimp_pickable_get_pixel_at, hslot, PixelSource.read] at hcentre
                by_contra hne
                simp [hne] at hcentre
              constructor
              · rintro ⟨_, hpal⟩
                have hfmt : ∃ f, gimp_pickable_get_format pickable = some f := by
                  cases hf : gimp_pickable_get_format pickable with
                  | none => rw [hf] at hpal; simp [babl_format_is_palette] at hpal
                  | some f => exact ⟨f, rfl⟩
                obtain ⟨f, hf⟩ := hfmt
                have hread : gimp_pickable_get_pixel_at pickable x y
                    (gimp_pickable_get_format pickable)
                    = some (source.pixel_at x y (some f)) := by
                  simp [gimp_pickable_get_pixel_at, hslot, PixelSource.read, hin, hf]
                refine ⟨_, hread, ?_⟩
                simp [pick_color_index, hpal, hread]
              · intro hnot
                have hpal : babl_format_is_palette (gimp_pickable_get_format pickable)
                    = false := by
                  cases h : babl_format_is_palette (gimp_pickable_get_format pickable) with
                  | false => rfl
                  | true => exact absurd ⟨rfl, h⟩ hnot
                simp [pick_color_index, hpal]
      | true =>
          constructor
          · rintro ⟨h, _⟩; cases h
          · intro _
            simp only [gimp_pickable_pick_color, hcentre, if_true, bind, Except.bind] at hok
            cases havg : average_pixel pickable (some Babl.RGBA_u8) x y average_radius centre with
            | error e => rw [havg] at hok; cases hok
            | ok px =>
                rw [havg] at hok
                cases hok
                simp [pick_color_index]

/-- Witness for C6: the pixel `(1, 1)` of the two by two palette source, picked
without averaging, has the palette index 3. -/
theorem pick_color_index_rule_witness :
    gimp_pickable_pick_color tile 1 1 false .nan true
      = .ok ⟨true, some ⟨35, 0, 3, 255⟩, some 3⟩ ∧
    (false = false ∧ babl_format_is_palette (gimp_pickable_get_format tile) = true →
      ∃ px, gimp_pickable_get_pixel_at tile 1 1 (gimp_pickable_get_format tile)
          = some px ∧
        (⟨true, some ⟨35, 0, 3, 255⟩, some 3⟩ : PickResult).color_index
          = some (of_guchar px.red)) ∧
    (¬ (false = false ∧ babl_format_is_palette (gimp_pickable_get_format tile) = true) →
      (⟨true, some ⟨35, 0, 3, 255⟩, some 3⟩ : PickResult).color_index = some (-1)) :=
  ⟨by decide,
   pick_color_index_rule tile 1 1 false .nan ⟨true, some ⟨35, 0, 3, 255⟩, some 3⟩
     (by decide) rfl⟩

/-! ## Properties of `gimp_image_convert_precision` -/

theorem convert_drawables_eq (precision : GimpPrecision) (progress : Bool) (n : Int)
    (l : List GimpDrawable) (k : Int) (w : Env) :
    convert_drawables precision progress n l k w
      = { w with log := w.log ++ drawable_calls precision progress n l k } := by
  induction l generalizing k w with
  | nil => simp [convert_drawables, drawable_calls]
  | cons d l ih =>
      cases progress <;>
        simp [convert_drawables, drawable_calls, ih, Env.call, List.append_assoc]

theorem convert_precision_eq (w : Env) (precision : GimpPrecision) (progress : Bool)
    (hvalid : valid_request w.image precision) :
    gimp_image_convert_precision w precision progress
      = { image := { w.image with precision := precision,
                                  mask_buffer := new_mask_buffer w.image precision },
          log := w.log ++ conversion_calls w.image precision progress } := by
  obtain ⟨h1, h2⟩ := hvalid
  cases progress <;>
    simp [gimp_image_convert_precision, h1, h2, convert_drawables_eq, convert_mask, Env.call,
      conversion_calls, prologue_calls, mask_calls, epilogue_calls, new_mask_buffer,
      gimp_image_get_mask_format, List.append_assoc]

theorem convert_precision_invalid (w : Env) (precision : GimpPrecision) (progress : Bool)
    (hinvalid : ¬ valid_request w.image precision) :
    gimp_image_convert_precision w precision progress = w := by
  unfold valid_request at hinvalid
  unfold gimp_image_convert_precision
  by_cases h1 : precision ≠ w.image.precision
  · have h2 : ¬ (precision = .U8 ∨ w.image.base_type ≠ .INDEXED) := fun h => hinvalid ⟨h1, h⟩
    rw [if_neg (not_not.2 h1), if_pos h2]
  · rw [if_pos h1]

theorem new_calls_valid (w : Env) (precision : GimpPrecision) (progress : Bool)
    (hvalid : valid_request w.image precision) :
    new_calls w precision progress = conversion_calls w.image precision progress := by
  simp [new_calls, convert_precision_eq w precision progress hvalid]

theorem new_calls_invalid (w : Env) (precision : GimpPrecision) (progress : Bool)
    (hinvalid : ¬ valid_request w.image precision) :
    new_calls w precision progress = [] := by
  simp [new_calls, convert_precision_invalid w precision progress hinvalid]

theorem drawable_calls_operands (precision : GimpPrecision) (n : Int)
    (l : List GimpDrawable) (k : Int) :
    progress_operands (drawable_calls precision true n l k)
      = (List.range l.length).map (fun (i : Nat) => (k + (i : Int), n)) := by
  induction l generalizing k with
  | nil => simp [drawable_calls, progress_operands]
  | cons d l ih =>
      have ih2 := ih (k + 1)
      unfold progress_operands at ih2 ⊢
      simp only [drawable_calls, if_true, List.filterMap_cons, List.singleton_append,
        List.length_cons, List.range_succ_eq_map, List.map_cons, List.map_map, ih2]
      simp [Function.comp_def]
      intro a _
      omega

theorem drawable_calls_no_progress (precision : GimpPrecision) (n : Int)
    (l : List GimpDrawable) (k : Int) :
    (drawable_calls precision false n l k).filter Call.is_progress = [] := by
  induction l generalizing k with
  | nil => simp [drawable_calls]
  | cons d l ih => simp [drawable_calls, Call.is_progress, ih]

theorem drawable_calls_undo_steps (precision : GimpPrecision) (progress : Bool) (n : Int)
    (l : List GimpDrawable) (k : Int) :
    (drawable_calls precision progress n l k).filter Call.is_undo_step
      = l.map (fun d => .gimp_drawable_convert_type d d.base_type precision true) := by
  induction l generalizing k with
  | nil => simp [drawable_calls]
  | cons d l ih => cases progress <;> simp [drawable_calls, Call.is_undo_step, ih]

theorem mem_drawable_calls (precision : GimpPrecision) (progress : Bool) (n : Int)
    (l : List GimpDrawable) (k : Int) (c : Call)
    (hc : c ∈ drawable_calls precision progress n l k) :
    (∃ d, c = .gimp_drawable_convert_type d d.base_type precision true) ∨
      (∃ a, c = .gimp_progress_set_value a n) := by
  induction l generalizing k with
  | nil => simp [drawable_calls] at hc
  | cons d l ih =>
      simp only [drawable_calls, List.mem_cons, List.mem_append] at hc
      rcases hc with h | h | h
      · exact Or.inl ⟨d, h⟩
      · cases progress
        · simp at h
        · simp at h; exact Or.inr ⟨k, h⟩
      · exact ih (k + 1) h

/-- C7: the conversion is executed (the run makes at least one call) exactly
when the requested precision differs from the current one and is 8-bit integer
or the image is not indexed. When the precondition fails the function returns
with the image (precision, drawables, mask) and the log of calls (undo stack,
notifications, progress sink) as they were: so for a request of the current
precision and for an indexed image asked for a precision other than 8-bit
integer. An indexed image asked for 8-bit integer (and not yet of that
precision) is converted. -/
theorem convert_precision_guard (w : Env) (precision : GimpPrecision) (progress : Bool) :
    (new_calls w precision progress ≠ [] ↔
      (precision ≠ w.image.precision ∧
        (precision = .U8 ∨ w.image.base_type ≠ .INDEXED))) ∧
    (¬ (precision ≠ w.image.precision ∧
        (precision = .U8 ∨ w.image.base_type ≠ .INDEXED)) →
      gimp_image_convert_precision w precision progress = w) ∧
    (precision = w.image.precision →
      gimp_image_convert_precision w precision progress = w) ∧
    (w.image.base_type = .INDEXED → precision ≠ .U8 →
      gimp_image_convert_precision w precision progress = w) ∧
    (w.image.base_type = .INDEXED → precision = .U8 → w.image.precision ≠ .U8 →
      (gimp_image_convert_precision w precision progress).image.precision = .U8 ∧
      Call.g_object_set_precision .U8 ∈ new_calls w precision progress) := by
  have hinv : ¬ valid_request w.image precision →
      gimp_image_convert_precision w precision progress = w :=
    convert_precision_invalid w precision progress
  refine ⟨?_, hinv, ?_, ?_, ?_⟩
  · constructor
    · intro hne
      by_contra hnot
      exact hne (new_calls_invalid w precision progress hnot)
    · intro hvalid
      rw [new_calls_valid w precision progress hvalid]
      cases progress <;> simp [conversion_calls, prologue_calls]
  · intro h
    exact hinv (fun hv => hv.1 h)
  · intro hidx hp
    exact hinv (fun hv => hv.2.elim hp (fun h => h hidx))
  · intro _ hp hcur
    have hvalid : valid_request w.image precision := ⟨by rw [hp]; exact Ne.symm hcur, Or.inl hp⟩
    rw [new_calls_valid w precision progress hvalid,
      convert_precision_eq w precision progress hvalid]
    subst hp
    cases progress <;> simp [conversion_calls, prologue_calls]

theorem progress_operands_append (l l2 : List Call) :
    progress_operands (l ++ l2) = progress_operands l ++ progress_operands l2 := by
  simp [progress_operands]

theorem conversion_calls_operands (image : GimpImage) (precision : GimpPrecision) :
    progress_operands (conversion_calls image precision true)
      = (List.range (image.layers ++ image.channels).length).map
          (fun (k : Nat) => ((k : Int), ((image.layers ++ image.channels).length : Int))) := by
  unfold conversion_calls
  rw [progress_operands_append, progress_operands_append, progress_operands_append,
    drawable_calls_operands]
  simp [progress_operands, prologue_calls, mask_calls, epilogue_calls]

theorem conversion_calls_no_progress (image : GimpImage) (precision : GimpPrecision) :
    (conversion_calls image precision false).filter Call.is_progress = [] := by
  unfold conversion_calls
  rw [List.filter_append, List.filter_append, List.filter_append, drawable_calls_no_progress]
  simp [prologue_calls, mask_calls, epilogue_calls, Call.is_progress]

/-- C8: on a valid call with a progress sink on an image with `n` drawables
(layers plus channels) the sink receives exactly `n` set-value calls, the `k`-th
(`k = 0 .. n - 1`, in processing order) with the quotient of `k` by `n`; the
values are non-decreasing, lie in `[0, 1)`, and the last one is `(n - 1) / n`;
for three layers and one channel they are `0/4, 1/4, 2/4, 3/4`. Without a
progress sink the run makes no progress call of any kind. -/
theorem convert_precision_progress (w : Env) (precision : GimpPrecision)
    (hvalid : precision ≠ w.image.precision ∧
      (precision = .U8 ∨ w.image.base_type ≠ .INDEXED)) :
    progress_operands (new_calls w precision true)
      = (List.range (w.image.layers.length + w.image.channels.length)).map
          (fun (k : Nat) =>
            ((k : Int), ((w.image.layers.length + w.image.channels.length : Nat) : Int))) ∧
    progress_values (new_calls w precision true)
      = (List.range (w.image.layers.length + w.image.channels.length)).map
          (fun (k : Nat) =>
            (k : ℚ) / ((w.image.layers.length + w.image.channels.length : Nat) : ℚ)) ∧
    (progress_values (new_calls w precision true)).Pairwise (· ≤ ·) ∧
    (∀ v ∈ progress_values (new_calls w precision true), 0 ≤ v ∧ v < 1) ∧
    (0 < w.image.layers.length + w.image.channels.length →
      (progress_values (new_calls w precision true)).getLast?
        = some ((((w.image.layers.length + w.image.channels.length : Nat) : ℚ) - 1) /
            ((w.image.layers.length + w.image.channels.length : Nat) : ℚ))) ∧
    (w.image.layers.length = 3 → w.image.channels.length = 1 →
      progress_values (new_calls w precision true) = [0 / 4, 1 / 4, 2 / 4, 3 / 4]) ∧
    (new_calls w precision false).filter Call.is_progress = [] := by
  have hops : progress_operands (new_calls w precision true)
      = (List.range (w.image.layers.length + w.image.channels.length)).map
          (fun (k : Nat) =>
            ((k : Int), ((w.image.layers.length + w.image.channels.length : Nat) : Int))) := by
    rw [new_calls_valid w precision true hvalid, conversion_calls_operands,
      List.length_append]
  have hvals : progress_values (new_calls w precision true)
      = (List.range (w.image.layers.length + w.image.channels.length)).map
          (fun (k : Nat) =>
            (k : ℚ) / ((w.image.layers.length + w.image.channels.length : Nat) : ℚ)) := by
    unfold progress_values
    rw [hops, List.map_map]
    apply List.map_congr_left
    intro k _
    simp
  refine ⟨hops, hvals, ?_, ?_, ?_, ?_, ?_⟩
  · rw [hvals, List.pairwise_map]
    refine List.Pairwise.imp ?_ (List.pairwise_lt_range _)
    intro a b hab
    have h : (a : ℚ) ≤ (b : ℚ) := by exact_mod_cast hab.le
    exact div_le_div_of_nonneg_right h (by positivity)
  · intro v hv
    rw [hvals, List.mem_map] at hv
    obtain ⟨k, hk, rfl⟩ := hv
    rw [List.mem_range] at hk
    have hn : (0 : ℚ) < ((w.image.layers.length + w.image.channels.length : Nat) : ℚ) := by
      have : 0 < w.image.layers.length + w.image.channels.length := by omega
      exact_mod_cast this
    constructor
    · positivity
    · rw [div_lt_one hn]
      exact_mod_cast hk
  · intro hpos
    obtain ⟨m, hm⟩ : ∃ m, w.image.layers.length + w.image.channels.length = m + 1 :=
      ⟨w.image.layers.length + w.image.channels.length - 1, by omega⟩
    rw [hvals, hm, List.range_succ, List.map_append]
    simp
  · intro h3 h1
    rw [hvals, h3, h1]
    norm_num [List.range_succ]
  · rw [new_calls_valid w precision false hvalid]
    exact conversion_calls_no_progress w.image precision

/-- Witness for C8: the image with three layers and one channel, converted from
32-bit floating point to 8-bit integer with a progress sink. -/
theorem convert_precision_progress_witness :
    (GimpPrecision.U8 ≠ sample_image.precision ∧
      (GimpPrecision.U8 = .U8 ∨ sample_image.base_type ≠ .INDEXED)) ∧
    progress_operands (new_calls ⟨sample_image, []⟩ .U8 true)
      = [(0, 4), (1, 4), (2, 4), (3, 4)] ∧
    progress_values (new_calls ⟨sample_image, []⟩ .U8 true) = [0 / 4, 1 / 4, 2 / 4, 3 / 4] :=
  ⟨by decide, by decide,
   (convert_precision_progress ⟨sample_image, []⟩ .U8 (by decide)).2.2.2.2.2.1 rfl rfl⟩

theorem drawable_calls_plain (precision : GimpPrecision) (progress : Bool) (n : Int)
    (l : List GimpDrawable) (k : Int) (c : Call)
    (hc : c ∈ drawable_calls precision progress n l k) :
    c.is_group_bracket = false ∧ c.is_notification = false := by
  rcases mem_drawable_calls precision progress n l k c hc with ⟨d, rfl⟩ | ⟨a, rfl⟩ <;>
    exact ⟨rfl, rfl⟩

/-- C9: on a valid call the calls split as `pre`, the one group start (kind image
convert, labelled with the description also given to the progress sink), `mid`,
the one group end, `post`; no other group start or end occurs, no undo step
lies outside `mid`, and the undo steps inside are, in order, the push of the
image precision, the conversion of each of the `n` drawables and the push of
the mask precision: `n + 2` steps (six for three layers and one channel). -/
theorem convert_precision_undo_group (w : Env) (precision : GimpPrecision) (progress : Bool)
    (hvalid : precision ≠ w.image.precision ∧
      (precision = .U8 ∨ w.image.base_type ≠ .INDEXED)) :
    ∃ pre mid post : List Call,
      new_calls w precision progress
        = pre ++ [.gimp_image_undo_group_start .GROUP_IMAGE_CONVERT (undo_desc precision)]
            ++ mid ++ [.gimp_image_undo_group_end] ++ post ∧
      (∀ c ∈ pre ++ mid ++ post, c.is_group_bracket = false) ∧
      (∀ c ∈ pre ++ post, c.is_undo_step = false) ∧
      mid.filter Call.is_undo_step
        = [.gimp_image_undo_push_image_precision w.image.precision] ++
            (w.image.layers ++ w.image.channels).map
              (fun d => .gimp_drawable_convert_type d d.base_type precision true) ++
            [.gimp_image_undo_push_mask_precision] ∧
      (mid.filter Call.is_undo_step).length
        = w.image.layers.length + w.image.channels.length + 2 ∧
      (progress = true → Call.gimp_progress_start (undo_desc precision) false ∈ pre) := by
  have hgen : ∀ m : List Call, m.filter Call.is_undo_step
        = [.gimp_image_undo_push_image_precision w.image.precision] ++
            (w.image.layers ++ w.image.channels).map
              (fun d => .gimp_drawable_convert_type d d.base_type precision true) ++
            [.gimp_image_undo_push_mask_precision] →
      (m.filter Call.is_undo_step).length
        = w.image.layers.length + w.image.channels.length + 2 := by
    intro m hm
    rw [hm]
    simp
    omega
  refine ⟨(if progress then [.gimp_progress_start (undo_desc precision) false] else []) ++
      [.g_object_freeze_notify],
    [.gimp_image_undo_push_image_precision w.image.precision,
      .g_object_set_precision precision] ++
      drawable_calls precision progress ((w.image.layers ++ w.image.channels).length : Int)
        (w.image.layers ++ w.image.channels) 0 ++
      [.gimp_image_undo_push_mask_precision,
       .gimp_gegl_buffer_new ⟨0, 0, w.image.width, w.image.height⟩ ⟨precision⟩,
       .gegl_buffer_copy w.image.mask_buffer (new_mask_buffer w.image precision),
       .gimp_drawable_set_buffer false (new_mask_buffer w.image precision)],
    [.gimp_image_precision_changed, .g_object_thaw_notify] ++
      (if progress then [.gimp_progress_end] else []), ?_, ?_, ?_, ?_, ?_, ?_⟩
  · rw [new_calls_valid w precision progress hvalid]
    simp [conversion_calls, prologue_calls, mask_calls, epilogue_calls, List.append_assoc]
  · cases progress <;>
      simp [Call.is_group_bracket, or_imp, forall_and] <;>
      exact fun c h => (drawable_calls_plain _ _ _ _ _ c h).1
  · cases progress <;> simp [Call.is_undo_step]
  · rw [List.filter_append, List.filter_append, drawable_calls_undo_steps]
    simp [Call.is_undo_step]
  · apply hgen
    rw [List.filter_append, List.filter_append, drawable_calls_undo_steps]
    simp [Call.is_undo_step]
  · intro hp
    subst hp
    simp

/-- Witness for C9: the image with three layers and one channel. -/
theorem convert_precision_undo_group_witness :
    (GimpPrecision.U8 ≠ sample_image.precision ∧
      (GimpPrecision.U8 = .U8 ∨ sample_image.base_type ≠ .INDEXED)) ∧
    ∃ pre mid post : List Call,
      new_calls ⟨sample_image, []⟩ .U8 true
        = pre ++ [.gimp_image_undo_group_start .GROUP_IMAGE_CONVERT (undo_desc .U8)]
            ++ mid ++ [.gimp_image_undo_group_end] ++ post ∧
      (∀ c ∈ pre ++ mid ++ post, c.is_group_bracket = false) ∧
      (∀ c ∈ pre ++ post, c.is_undo_step = false) ∧
      mid.filter Call.is_undo_step
        = [.gimp_image_undo_push_image_precision sample_image.precision] ++
            (sample_image.layers ++ sample_image.channels).map
              (fun d => .gimp_drawable_convert_type d d.base_type .U8 true) ++
            [.gimp_image_undo_push_mask_precision] ∧
      (mid.filter Call.is_undo_step).length
        = sample_image.layers.length + sample_image.channels.length + 2 ∧
      (true = true → Call.gimp_progress_start (undo_desc .U8) false ∈ pre) :=
  ⟨by decide, convert_precision_undo_group ⟨sample_image, []⟩ .U8 true (by decide)⟩

theorem drawable_calls_count (precision : GimpPrecision) (progress : Bool) (n : Int)
    (l : List GimpDrawable) (k : Int) (c : Call) (hc : c.is_notification = true) :
    (drawable_calls precision progress n l k).count c = 0 := by
  apply List.count_eq_zero_of_not_mem
  intro hmem
  have := (drawable_calls_plain precision progress n l k c hmem).2
  rw [hc] at this
  cases this

/-- C10: on a valid call the notifications of the image are frozen exactly once,
before the undo group opens and before the precision attribute is set (only
progress calls may precede the freeze), and thawed exactly once (only progress
calls may follow the thaw); exactly one precision-changed notification is
emitted, whatever the number of drawables, right after the group end and right
before the thaw. -/
theorem convert_precision_notifications (w : Env) (precision : GimpPrecision)
    (progress : Bool)
    (hvalid : precision ≠ w.image.precision ∧
      (precision = .U8 ∨ w.image.base_type ≠ .INDEXED)) :
    (∃ pre body post : List Call,
      new_calls w precision progress
        = pre ++ [.g_object_freeze_notify,
                  .gimp_image_undo_group_start .GROUP_IMAGE_CONVERT (undo_desc precision),
                  .gimp_image_undo_push_image_precision w.image.precision,
                  .g_object_set_precision precision]
            ++ body
            ++ [.gimp_image_undo_group_end, .gimp_image_precision_changed,
                .g_object_thaw_notify]
            ++ post ∧
      (∀ c ∈ pre ++ post, c.is_progress = true) ∧
      (∀ c ∈ pre ++ body ++ post,
        c.is_notification = false ∧ c.is_group_bracket = false)) ∧
    (new_calls w precision progress).count .g_object_freeze_notify = 1 ∧
    (new_calls w precision progress).count .g_object_thaw_notify = 1 ∧
    (new_calls w precision progress).count .gimp_image_precision_changed = 1 := by
  have hcalls := new_calls_valid w precision progress hvalid
  refine ⟨⟨if progress then [.gimp_progress_start (undo_desc precision) false] else [],
    drawable_calls precision progress ((w.image.layers ++ w.image.channels).length : Int)
        (w.image.layers ++ w.image.channels) 0 ++ mask_calls w.image precision,
    if progress then [.gimp_progress_end] else [], ?_, ?_, ?_⟩, ?_, ?_, ?_⟩
  · rw [hcalls]
    simp [conversion_calls, prologue_calls, epilogue_calls, List.append_assoc]
  · cases progress <;> simp [Call.is_progress]
  · cases progress <;>
      simp [Call.is_group_bracket, Call.is_notification, mask_calls, or_imp, forall_and] <;>
      exact ⟨fun c h => (drawable_calls_plain _ _ _ _ _ c h).2,
        fun c h => (drawable_calls_plain _ _ _ _ _ c h).1⟩
  · rw [hcalls]
    unfold conversion_calls
    rw [List.count_append, List.count_append, List.count_append,
      drawable_calls_count _ _ _ _ _ Call.g_object_freeze_notify rfl]
    cases progress <;> simp [prologue_calls, mask_calls, epilogue_calls]
  · rw [hcalls]
    unfold conversion_calls
    rw [List.count_append, List.count_append, List.count_append,
      drawable_calls_count _ _ _ _ _ Call.g_object_thaw_notify rfl]
    cases progress <;> simp [prologue_calls, mask_calls, epilogue_calls]
  · rw [hcalls]
    unfold conversion_calls
    rw [List.count_append, List.count_append, List.count_append,
      drawable_calls_count _ _ _ _ _ Call.gimp_image_precision_changed rfl]
    cases progress <;> simp [prologue_calls, mask_calls, epilogue_calls]

/-- Witness for C10: the image with three layers and one channel. -/
theorem convert_precision_notifications_witness :
    (GimpPrecision.U8 ≠ sample_image.precision ∧
      (GimpPrecision.U8 = .U8 ∨ sample_image.base_type ≠ .INDEXED)) ∧
    (new_calls ⟨sample_image, []⟩ .U8 false).count .g_object_freeze_notify = 1 ∧
    (new_calls ⟨sample_image, []⟩ .U8 false).count .g_object_thaw_notify = 1 ∧
    (new_calls ⟨sample_image, []⟩ .U8 false).count .gimp_image_precision_changed = 1 :=
  ⟨by decide,
   (convert_precision_notifications ⟨sample_image, []⟩ .U8 false (by decide)).2⟩

/-! ## Drawables, image precision and mask -/

theorem conversion_requests_append (l l2 : List Call) :
    conversion_requests (l ++ l2) = conversion_requests l ++ conversion_requests l2 := by
  simp [conversion_requests]

theorem drawable_calls_requests (precision : GimpPrecision) (progress : Bool) (n : Int)
    (l : List GimpDrawable) (k : Int) :
    conversion_requests (drawable_calls precision progress n l k)
      = l.map (fun d => (d, d.base_type, precision, true)) := by
  induction l generalizing k with
  | nil => simp [drawable_calls, conversion_requests]
  | cons d l ih =>
      have ih2 := ih (k + 1)
      unfold conversion_requests at ih2 ⊢
      cases progress <;> simp [drawable_calls, ih2]

theorem conversion_calls_requests (image : GimpImage) (precision : GimpPrecision)
    (progress : Bool) :
    conversion_requests (conversion_calls image precision progress)
      = (image.layers ++ image.channels).map (fun d => (d, d.base_type, precision, true)) := by
  unfold conversion_calls
  rw [conversion_requests_append, conversion_requests_append, conversion_requests_append,
    drawable_calls_requests]
  cases progress <;>
    simp [conversion_requests, prologue_calls, mask_calls, epilogue_calls]

/-- C11: on a valid call the conversions are requested of the drawables of the
layer list followed by those of the channel list, in that order and once each;
every request passes the base type of its own drawable, the new precision and
`push_undo = TRUE`; the denominator of every progress quotient is the length of
the combined list. -/
theorem convert_precision_drawables (w : Env) (precision : GimpPrecision) (progress : Bool)
    (hvalid : precision ≠ w.image.precision ∧
      (precision = .U8 ∨ w.image.base_type ≠ .INDEXED)) :
    conversion_requests (new_calls w precision progress)
      = (w.image.layers ++ w.image.channels).map
          (fun d => (d, d.base_type, precision, true)) ∧
    (conversion_requests (new_calls w precision progress)).map (fun q => q.1)
      = w.image.layers ++ w.image.channels ∧
    (∀ q ∈ conversion_requests (new_calls w precision progress),
      q.2.1 = q.1.base_type ∧ q.2.2.1 = precision ∧ q.2.2.2 = true) ∧
    (∀ p ∈ progress_operands (new_calls w precision true),
      p.2 = ((w.image.layers ++ w.image.channels).length : Int)) := by
  have hreq : conversion_requests (new_calls w precision progress)
      = (w.image.layers ++ w.image.channels).map
          (fun d => (d, d.base_type, precision, true)) := by
    rw [new_calls_valid w precision progress hvalid, conversion_calls_requests]
  refine ⟨hreq, ?_, ?_, ?_⟩
  · rw [hreq, List.map_map]
    simp [Function.comp_def]
  · intro q hq
    rw [hreq, List.mem_map] at hq
    obtain ⟨d, _, rfl⟩ := hq
    exact ⟨rfl, rfl, rfl⟩
  · intro p hp
    rw [new_calls_valid w precision true hvalid, conversion_calls_operands, List.mem_map] at hp
    obtain ⟨k, _, rfl⟩ := hp
    rfl

/-- Witness for C11: the image with three layers and one channel. -/
theorem convert_precision_drawables_witness :
    (GimpPrecision.U8 ≠ sample_image.precision ∧
      (GimpPrecision.U8 = .U8 ∨ sample_image.base_type ≠ .INDEXED)) ∧
    conversion_requests (new_calls ⟨sample_image, []⟩ .U8 true)
      = [(⟨1, .RGB⟩, .RGB, .U8, true), (⟨2, .RGB⟩, .RGB, .U8, true),
         (⟨3, .RGB⟩, .RGB, .U8, true), (⟨4, .GRAY⟩, .GRAY, .U8, true)] ∧
    (∀ p ∈ progress_operands (new_calls ⟨sample_image, []⟩ .U8 true), p.2 = 4) :=
  ⟨by decide,
   (convert_precision_drawables ⟨sample_image, []⟩ .U8 true (by decide)).1,
   (convert_precision_drawables ⟨sample_image, []⟩ .U8 true (by decide)).2.2.2⟩

theorem drawable_calls_other (precision : GimpPrecision) (progress : Bool) (n : Int)
    (l : List GimpDrawable) (k : Int) (c : Call)
    (hc : c ∈ drawable_calls precision progress n l k) :
    c.is_precision_set = false ∧ c.is_mask_step = false := by
  rcases mem_drawable_calls precision progress n l k c hc with ⟨d, rfl⟩ | ⟨a, rfl⟩ <;>
    exact ⟨rfl, rfl⟩

theorem pushed_image_precisions_append (l l2 : List Call) :
    pushed_image_precisions (l ++ l2)
      = pushed_image_precisions l ++ pushed_image_precisions l2 := by
  simp [pushed_image_precisions]

theorem drawable_calls_pushed (precision : GimpPrecision) (progress : Bool) (n : Int)
    (l : List GimpDrawable) (k : Int) :
    pushed_image_precisions (drawable_calls precision progress n l k) = [] := by
  induction l generalizing k with
  | nil => simp [drawable_calls, pushed_image_precisions]
  | cons d l ih =>
      have ih2 := ih (k + 1)
      unfold pushed_image_precisions at ih2 ⊢
      cases progress <;> simp [drawable_calls, ih2]

/-- C12: on a valid call the image precision is pushed on the undo stack exactly
once, the push carries the precision the image had before the call and comes
right before the (only) store to the precision attribute, and when the call
returns the precision attribute is the requested one. -/
theorem convert_precision_image_push (w : Env) (precision : GimpPrecision)
    (progress : Bool)
    (hvalid : precision ≠ w.image.precision ∧
      (precision = .U8 ∨ w.image.base_type ≠ .INDEXED)) :
    (∃ pre post : List Call,
      new_calls w precision progress
        = pre ++ [.gimp_image_undo_push_image_precision w.image.precision,
                  .g_object_set_precision precision] ++ post ∧
      (∀ c ∈ pre ++ post, c.is_precision_set = false) ∧
      pushed_image_precisions pre = [] ∧ pushed_image_precisions post = []) ∧
    pushed_image_precisions (new_calls w precision progress) = [w.image.precision] ∧
    (gimp_image_convert_precision w precision progress).image.precision = precision := by
  have hcalls := new_calls_valid w precision progress hvalid
  refine ⟨⟨(if progress then [.gimp_progress_start (undo_desc precision) false] else []) ++
      [.g_object_freeze_notify,
       .gimp_image_undo_group_start .GROUP_IMAGE_CONVERT (undo_desc precision)],
    drawable_calls precision progress ((w.image.layers ++ w.image.channels).length : Int)
        (w.image.layers ++ w.image.channels) 0 ++
      mask_calls w.image precision ++ epilogue_calls progress, ?_, ?_, ?_, ?_⟩, ?_, ?_⟩
  · rw [hcalls]
    simp [conversion_calls, prologue_calls, List.append_assoc]
  · cases progress <;>
      simp [Call.is_precision_set, mask_calls, epilogue_calls, or_imp, forall_and] <;>
      exact fun c h => (drawable_calls_other _ _ _ _ _ c h).1
  · cases progress <;> simp [pushed_image_precisions]
  · rw [pushed_image_precisions_append, pushed_image_precisions_append,
      drawable_calls_pushed]
    cases progress <;> simp [pushed_image_precisions, mask_calls, epilogue_calls]
  · rw [hcalls]
    unfold conversion_calls
    rw [pushed_image_precisions_append, pushed_image_precisions_append,
      pushed_image_precisions_append, drawable_calls_pushed]
    cases progress <;>
      simp [pushed_image_precisions, prologue_calls, mask_calls, epilogue_calls]
  · rw [convert_precision_eq w precision progress hvalid]

/-- Witness for C12: the image with three layers and one channel, converted from
32-bit floating point to 8-bit integer. -/
theorem convert_precision_image_push_witness :
    (GimpPrecision.U8 ≠ sample_image.precision ∧
      (GimpPrecision.U8 = .U8 ∨ sample_image.base_type ≠ .INDEXED)) ∧
    sample_image.precision = .FLOAT ∧
    pushed_image_precisions (new_calls ⟨sample_image, []⟩ .U8 true) = [.FLOAT] ∧
    (gimp_image_convert_precision ⟨sample_image, []⟩ .U8 true).image.precision = .U8 :=
  ⟨by decide, rfl,
   (convert_precision_image_push ⟨sample_image, []⟩ .U8 true (by decide)).2⟩

/-- C13: on a valid call, whatever the layer and channel lists hold, the mask
block runs exactly once and after every drawable conversion: the push of the
mask precision, then the creation of a buffer of extent
`(0, 0, image width, image height)` in the mask format of the image as it is
after the store of the new precision, then the copy of the old mask buffer into
it, then its installation with `push_undo = FALSE`. The buffer of the mask is
then that buffer, as wide and as high as the image. -/
theorem convert_precision_mask (w : Env) (precision : GimpPrecision) (progress : Bool)
    (hvalid : precision ≠ w.image.precision ∧
      (precision = .U8 ∨ w.image.base_type ≠ .INDEXED)) :
    (∃ pre post : List Call,
      new_calls w precision progress
        = pre ++ [.gimp_image_undo_push_mask_precision,
                  .gimp_gegl_buffer_new ⟨0, 0, w.image.width, w.image.height⟩
                    (gimp_image_get_mask_format { w.image with precision := precision }),
                  .gegl_buffer_copy w.image.mask_buffer
                    (gimp_image_convert_precision w precision progress).image.mask_buffer,
                  .gimp_drawable_set_buffer false
                    (gimp_image_convert_precision w precision progress).image.mask_buffer]
            ++ post ∧
      (∀ c ∈ pre ++ post, c.is_mask_step = false) ∧
      Call.g_object_set_precision precision ∈ pre ∧
      conversion_requests pre
        = (w.image.layers ++ w.image.channels).map
            (fun d => (d, d.base_type, precision, true)) ∧
      conversion_requests post = []) ∧
    (gimp_image_convert_precision w precision progress).image.mask_buffer
      = ⟨⟨0, 0, w.image.width, w.image.height⟩,
         gimp_image_get_mask_format { w.image with precision := precision }⟩ ∧
    (gimp_image_convert_precision w precision progress).image.mask_buffer.extent.width
      = (gimp_image_convert_precision w precision progress).image.width ∧
    (gimp_image_convert_precision w precision progress).image.mask_buffer.extent.height
      = (gimp_image_convert_precision w precision progress).image.height := by
  have hcalls := new_calls_valid w precision progress hvalid
  have heq := convert_precision_eq w precision progress hvalid
  refine ⟨⟨prologue_calls w.image precision progress ++
      drawable_calls precision progress ((w.image.layers ++ w.image.channels).length : Int)
        (w.image.layers ++ w.image.channels) 0,
    epilogue_calls progress, ?_, ?_, ?_, ?_, ?_⟩, ?_, ?_, ?_⟩
  · rw [hcalls, heq]
    simp [conversion_calls, mask_calls, new_mask_buffer, gimp_image_get_mask_format,
      List.append_assoc]
  · cases progress <;>
      simp [Call.is_mask_step, prologue_calls, epilogue_calls, or_imp, forall_and] <;>
      exact fun c h => (drawable_calls_other _ _ _ _ _ c h).2
  · cases progress <;> simp [prologue_calls]
  · rw [conversion_requests_append, drawable_calls_requests]
    cases progress <;> simp [conversion_requests, prologue_calls]
  · cases progress <;> simp [conversion_requests, epilogue_calls]
  · rw [heq]; rfl
  · rw [heq]; rfl
  · rw [heq]; rfl

/-- Witness for C13: an image without layers and channels, converted from 8-bit
to 16-bit integer without progress sink. -/
theorem convert_precision_mask_witness :
    (GimpPrecision.U16 ≠ empty_image.precision ∧
      (GimpPrecision.U16 = .U8 ∨ empty_image.base_type ≠ .INDEXED)) ∧
    empty_image.layers ++ empty_image.channels = [] ∧
    new_calls ⟨empty_image, []⟩ .U16 false
      = [.g_object_freeze_notify,
         .gimp_image_undo_group_start .GROUP_IMAGE_CONVERT (undo_desc .U16),
         .gimp_image_undo_push_image_precision .U8,
         .g_object_set_precision .U16,
         .gimp_image_undo_push_mask_precision,
         .gimp_gegl_buffer_new ⟨0, 0, 32, 16⟩ ⟨.U16⟩,
         .gegl_buffer_copy ⟨⟨0, 0, 32, 16⟩, ⟨.U8⟩⟩ ⟨⟨0, 0, 32, 16⟩, ⟨.U16⟩⟩,
         .gimp_drawable_set_buffer false ⟨⟨0, 0, 32, 16⟩, ⟨.U16⟩⟩,
         .gimp_image_undo_group_end, .gimp_image_precision_changed,
         .g_object_thaw_notify] ∧
    (gimp_image_convert_precision ⟨empty_image, []⟩ .U16 false).image.mask_buffer
      = ⟨⟨0, 0, empty_image.width, empty_image.height⟩,
         gimp_image_get_mask_format { empty_image with precision := .U16 }⟩ :=
  ⟨by decide, rfl, by decide,
   (convert_precision_mask ⟨empty_image, []⟩ .U16 false (by decide)).2.1⟩

/-! ## Range and safety of the averaging -/

theorem gint_result_ok (v w : Int) (h : gint_result v = .ok w) : w = v ∧ is_gint v := by
  unfold gint_result at h
  by_cases hv : is_gint v
  · rw [if_pos hv] at h; cases h; exact ⟨rfl, hv⟩
  · rw [if_neg hv] at h; cases h

theorem gint_result_error (v : Int) (e : Fault) (h : gint_result v = .error e) :
    e = .signed_overflow := by
  unfold gint_result at h
  by_cases hv : is_gint v
  · rw [if_pos hv] at h; cases h
  · rw [if_neg hv] at h; cases h; rfl

/-- A loop that ends has run its body at every trip and incremented its counter
each time. -/
theorem for_gint_ok_step {σ : Type} (body : Int → σ → Except Fault σ) (n : Nat) (lo : Int)
    (s t : σ) (h : for_gint body (n + 1) lo s = .ok t) :
    is_gint (lo + 1) ∧ ∃ s1, body lo s = .ok s1 ∧ for_gint body n (lo + 1) s1 = .ok t := by
  simp only [for_gint] at h
  cases hb : body lo s with
  | error e => rw [hb] at h; cases h
  | ok s1 =>
      rw [hb] at h
      cases ha : gint_add lo 1 with
      | error e => rw [ha] at h; cases h
      | ok v1 =>
          rw [ha] at h
          obtain ⟨rfl, hg⟩ := gint_result_ok _ _ ha
          exact ⟨hg, s1, rfl, h⟩

/-- A loop that ends after at least one trip has a last counter value that is
representable. -/
theorem for_gint_ok_bound {σ : Type} (body : Int → σ → Except Fault σ) (n : Nat) (lo : Int)
    (s t : σ) (h : for_gint body n lo s = .ok t) (hn : 1 ≤ n) :
    lo + n ≤ G_MAXINT := by
  induction n generalizing lo s with
  | zero => omega
  | succ n ih =>
      obtain ⟨hg, s1, _, hrest⟩ := for_gint_ok_step body n lo s t h
      by_cases h0 : n = 0
      · subst h0; have := hg.2; push_cast; omega
      · have := ih (lo + 1) s1 hrest (by omega)
        push_cast; omega

/-- A loop faults only the way its body or its counter does. -/
theorem for_gint_fault {σ : Type} (body : Int → σ → Except Fault σ)
    (hbody : ∀ v s e, body v s = .error e → e = .signed_overflow)
    (n : Nat) (lo : Int) (s : σ) (e : Fault)
    (h : for_gint body n lo s = .error e) : e = .signed_overflow := by
  induction n generalizing lo s with
  | zero => simp [for_gint] at h
  | succ n ih =>
      simp only [for_gint] at h
      cases hb : body lo s with
      | error e1 => rw [hb] at h; cases h; exact hbody lo s e hb
      | ok s1 =>
          rw [hb] at h
          cases ha : gint_add lo 1 with
          | error e1 => rw [ha] at h; cases h; exact gint_result_error _ _ ha
          | ok v1 => rw [ha] at h; exact ih v1 s1 h

theorem sample_pixel_fault (pickable : GimpPickable) (format : Option Babl) (i j : Int)
    (s : SampleState) (e : Fault) (h : sample_pixel pickable format i j s = .error e) :
    e = .signed_overflow := by
  unfold sample_pixel at h
  cases hread : gimp_pickable_get_pixel_at pickable i j format with
  | none => rw [hread] at h; cases h
  | some px =>
      rw [hread] at h
      simp only [gint_add, gint_result, bind, Except.bind] at h
      split_ifs at h <;> cases h <;> rfl

theorem sample_column_fault (pickable : GimpPickable) (format : Option Babl)
    (y radius i : Int) (s : SampleState) (e : Fault)
    (h : sample_column pickable format y radius i s = .error e) :
    e = .signed_overflow := by
  unfold sample_column at h
  cases h1 : gint_sub y radius with
  | error e1 =>
      rw [h1] at h; cases h; exact gint_result_error _ _ h1
  | ok lo =>
      rw [h1] at h
      cases h2 : gint_add y radius with
      | error e1 => rw [h2] at h; cases h; exact gint_result_error _ _ h2
      | ok hi =>
          rw [h2] at h
          exact for_gint_fault _ (sample_pixel_fault pickable format i) _ _ _ _ h

theorem sample_square_fault (pickable : GimpPickable) (format : Option Babl)
    (x y radius : Int) (s : SampleState) (e : Fault)
    (h : sample_square pickable format x y radius s = .error e) :
    e = .signed_overflow := by
  unfold sample_square at h
  cases h1 : gint_sub x radius with
  | error e1 =>
      rw [h1] at h; cases h; exact gint_result_error _ _ h1
  | ok lo =>
      rw [h1] at h
      cases h2 : gint_add x radius with
      | error e1 => rw [h2] at h; cases h; exact gint_result_error _ _ h2
      | ok hi =>
          rw [h2] at h
          exact for_gint_fault _ (sample_column_fault pickable format y radius) _ _ _ _ h

theorem sample_column_ok_bounds (pickable : GimpPickable) (format : Option Babl)
    (y r i : Int) (s t : SampleState) (hr : 0 ≤ r)
    (h : sample_column pickable format y r i s = .ok t) :
    G_MININT ≤ y - r ∧ y + r < G_MAXINT := by
  unfold sample_column at h
  cases h1 : gint_sub y r with
  | error e1 => rw [h1] at h; cases h
  | ok lo =>
      rw [h1] at h
      obtain ⟨rfl, hlo⟩ := gint_result_ok _ _ h1
      cases h2 : gint_add y r with
      | error e1 => rw [h2] at h; cases h
      | ok hi =>
          rw [h2] at h
          obtain ⟨rfl, _⟩ := gint_result_ok _ _ h2
          have ht := trip_count_symm y r hr
          have hb := for_gint_ok_bound _ _ _ _ _ h (by omega)
          exact ⟨hlo.1, by omega⟩

/-- Loops that end for a radius `r ≥ 0` have all their counter values
representable. -/
theorem sample_square_ok_bounds (pickable : GimpPickable) (format : Option Babl)
    (x y r : Int) (s t : SampleState) (hr : 0 ≤ r)
    (h : sample_square pickable format x y r s = .ok t) :
    (G_MININT ≤ x - r ∧ x + r < G_MAXINT) ∧ (G_MININT ≤ y - r ∧ y + r < G_MAXINT) := by
  unfold sample_square at h
  cases h1 : gint_sub x r with
  | error e1 => rw [h1] at h; cases h
  | ok lo =>
      rw [h1] at h
      obtain ⟨rfl, hlo⟩ := gint_result_ok _ _ h1
      cases h2 : gint_add x r with
      | error e1 => rw [h2] at h; cases h
      | ok hi =>
          rw [h2] at h
          obtain ⟨rfl, _⟩ := gint_result_ok _ _ h2
          have ht := trip_count_symm x r hr
          have hb := for_gint_ok_bound _ _ _ _ _ h (by omega)
          obtain ⟨m, hm⟩ : ∃ m, trip_count (x - r) (x + r) = m + 1 :=
            ⟨trip_count (x - r) (x + r) - 1, by omega⟩
          change for_gint _ (trip_count (x - r) (x + r)) (x - r) s = .ok t at h
          rw [hm] at h
          obtain ⟨_, s1, hcol, _⟩ := for_gint_ok_step _ _ _ _ _ h
          exact ⟨⟨hlo.1, by omega⟩, sample_column_ok_bounds _ _ _ _ _ _ _ hr hcol⟩

/-- For a negative radius the loops end at once and leave the state as it was. -/
theorem sample_square_negative (pickable : GimpPickable) (format : Option Babl)
    (x y r : Int) (s t : SampleState) (hr : r < 0)
    (h : sample_square pickable format x y r s = .ok t) : t = s := by
  unfold sample_square at h
  cases h1 : gint_sub x r with
  | error e1 => rw [h1] at h; cases h
  | ok lo =>
      rw [h1] at h
      obtain ⟨rfl, _⟩ := gint_result_ok _ _ h1
      cases h2 : gint_add x r with
      | error e1 => rw [h2] at h; cases h
      | ok hi =>
          rw [h2] at h
          obtain ⟨rfl, _⟩ := gint_result_ok _ _ h2
          have ht : trip_count (x - r) (x + r) = 0 := by unfold trip_count; omega
          change for_gint _ (trip_count (x - r) (x + r)) (x - r) s = .ok t at h
          rw [ht] at h
          simp only [for_gint] at h
          cases h; rfl

theorem channel_total_bounds (c : Pixel → guchar) (l : List Pixel) (lo hi : Nat)
    (hlo : ∀ px ∈ l, lo ≤ (c px).val) (hhi : ∀ px ∈ l, (c px).val ≤ hi) :
    lo * l.length ≤ channel_total c l ∧ channel_total c l ≤ hi * l.length := by
  induction l with
  | nil => simp [channel_total]
  | cons px l ih =>
      have h1 := hlo px (List.mem_cons_self px l)
      have h2 := hhi px (List.mem_cons_self px l)
      have ih2 := ih (fun q hq => hlo q (List.mem_cons_of_mem px hq))
        (fun q hq => hhi q (List.mem_cons_of_mem px hq))
      simp only [channel_total, List.map_cons, List.sum_cons, List.length_cons] at ih2 ⊢
      constructor
      · nlinarith [ih2.1]
      · nlinarith [ih2.2]

/-- The rounded average of values between `lo` and `hi` lies between `lo` and
`hi`. -/
theorem round_half_up_between (sum count lo hi : Nat) (hcount : 1 ≤ count)
    (hlo : lo * count ≤ sum) (hhi : sum ≤ hi * count) :
    lo ≤ round_half_up sum count ∧ round_half_up sum count ≤ hi := by
  unfold round_half_up
  constructor
  · rw [Nat.le_div_iff_mul_le (by omega)]
    omega
  · have h : sum + count / 2 < (hi + 1) * count := by
      have : (hi + 1) * count = hi * count + count := by ring
      omega
    have := (Nat.div_lt_iff_lt_mul (by omega : 0 < count)).2 h
    omega

/-- When the loops end for a radius `r ≥ 0`, the state they leave is the
accumulation over the in-extent pixels of the neighbourhood, and it is in
range. -/
theorem sample_square_end (pickable : GimpPickable) (x y r : Int) (centre : Pixel)
    (s : SampleState) (hr : 0 ≤ r)
    (hloop : sample_square pickable (some Babl.RGBA_u8) x y r ⟨0, 0, 0, 0, 0, centre⟩
      = .ok s) :
    ((G_MININT ≤ x - r ∧ x + r < G_MAXINT) ∧ (G_MININT ≤ y - r ∧ y + r < G_MAXINT)) ∧
    s.in_range ∧
    s.count = (sampled_count pickable x y r : Int) ∧
    s.avg_red = (channel_sum Pixel.red pickable x y r : Int) ∧
    s.avg_green = (channel_sum Pixel.green pickable x y r : Int) ∧
    s.avg_blue = (channel_sum Pixel.blue pickable x y r : Int) ∧
    s.avg_alpha = (channel_sum Pixel.alpha pickable x y r : Int) := by
  have hb := sample_square_ok_bounds pickable _ x y r _ s hr hloop
  have hs0 : (⟨0, 0, 0, 0, 0, centre⟩ : SampleState).in_range := by
    have g : (0 : Int) ≤ G_MAXINT := by decide
    exact ⟨⟨le_refl _, g⟩, ⟨le_refl _, g⟩, ⟨le_refl _, g⟩, ⟨le_refl _, g⟩, ⟨le_refl _, g⟩⟩
  rw [sample_square_eq pickable x y r _ hr hb.1 hb.2 hs0] at hloop
  unfold checked at hloop
  by_cases hin : ((sampled_pixels pickable x y r).foldl accumulate
      ⟨0, 0, 0, 0, 0, centre⟩).in_range
  · rw [if_pos hin] at hloop
    cases hloop
    exact ⟨hb, hin,
      (foldl_accumulate_count _ _).trans (Int.zero_add _),
      (foldl_accumulate_red _ _).trans (Int.zero_add _),
      (foldl_accumulate_green _ _).trans (Int.zero_add _),
      (foldl_accumulate_blue _ _).trans (Int.zero_add _),
      (foldl_accumulate_alpha _ _).trans (Int.zero_add _)⟩
  · rw [if_neg hin] at hloop
    cases hloop

/-- The facts about one averaged channel. -/
theorem averaged_channel_facts (c : Pixel → guchar) (l : List Pixel) (acc count : Int)
    (v : Nat) (hcount : 1 ≤ l.length)
    (hc : count = (l.length : Int)) (hacc : acc = (channel_total c l : Int))
    (hv : v = round_half_up (channel_total c l) l.length) :
    (v : Int) = (acc + count / 2) / count ∧
    0 ≤ (acc + count / 2) / count ∧ (acc + count / 2) / count ≤ 255 ∧
    ∀ lo hi : Nat, (∀ px ∈ l, lo ≤ (c px).val) → (∀ px ∈ l, (c px).val ≤ hi) →
      lo ≤ v ∧ v ≤ hi := by
  have hq : (v : Int) = (acc + count / 2) / count := by
    rw [hv, hc, hacc]; unfold round_half_up; norm_cast
  have h255 := round_half_up_le (channel_total c l) l.length hcount (channel_total_le c l)
  refine ⟨hq, ?_, ?_, ?_⟩
  · rw [← hq]; omega
  · rw [← hq, hv]; omega
  · intro lo hi hlo hhi
    have hb := channel_total_bounds c l lo hi hlo hhi
    rw [hv]
    exact round_half_up_between _ _ lo hi hcount hb.1 hb.2

/-- C14: when the averaging loops of a call with an in-bounds centre end with the
locals `s`, with `s.count ≥ 1` and every `s.avg_c + s.count / 2` representable:
`count` and the sums are those of the in-extent pixels of the neighbourhood, the
call returns TRUE, and for each channel the stored byte is the quotient
`(S_c + count / 2) / count` itself (the cast loses nothing), which lies in
`0 .. 255` and between every lower and every upper bound of the sampled values
of that channel (so between their minimum and maximum); when all the sampled
pixels are one and the same colour, the result is exactly that colour. -/
theorem averaged_channel_range (pickable : GimpPickable) (x y : Int)
    (average_radius : gdouble) (want_index : Bool) (r : Int) (centre : Pixel)
    (s : SampleState)
    (hcentre : gimp_pickable_get_pixel_at pickable x y (some Babl.RGBA_u8) = some centre)
    (hrad : gdouble_to_gint average_radius = .ok r)
    (hloop : sample_square pickable (some Babl.RGBA_u8) x y r ⟨0, 0, 0, 0, 0, centre⟩
      = .ok s)
    (hcount : 1 ≤ s.count)
    (hfit : ∀ ch ∈ color_channels, ch.2.1 s + s.count / 2 ≤ G_MAXINT) :
    s.count = (sampled_count pickable x y r : Int) ∧
    (∀ ch ∈ color_channels, ch.2.1 s = (channel_sum ch.1 pickable x y r : Int)) ∧
    ∃ color : GimpRGB,
      gimp_pickable_pick_color pickable x y true average_radius want_index
        = .ok ⟨true, some color, if want_index then some (-1) else none⟩ ∧
      (∀ ch ∈ color_channels,
        ((ch.2.2 color).val : Int) = (ch.2.1 s + s.count / 2) / s.count ∧
        0 ≤ (ch.2.1 s + s.count / 2) / s.count ∧
        (ch.2.1 s + s.count / 2) / s.count ≤ 255 ∧
        ∀ lo hi : Nat,
          (∀ px ∈ sampled_pixels pickable x y r, lo ≤ (ch.1 px).val) →
          (∀ px ∈ sampled_pixels pickable x y r, (ch.1 px).val ≤ hi) →
          lo ≤ (ch.2.2 color).val ∧ (ch.2.2 color).val ≤ hi) ∧
      (∀ p0 : Pixel, (∀ px ∈ sampled_pixels pickable x y r, px = p0) →
        color = ⟨p0.red, p0.green, p0.blue, p0.alpha⟩) := by
  have hr : 0 ≤ r := by
    by_contra hneg
    have := sample_square_negative pickable _ x y r _ s (by omega) hloop
    rw [this] at hcount
    have h0 : (1 : Int) ≤ 0 := hcount
    omega
  obtain ⟨⟨hx, hy⟩, hin, hc, h1, h2, h3, h4⟩ :=
    sample_square_end pickable x y r centre s hr hloop
  have f1 := hfit (Pixel.red, SampleState.avg_red, GimpRGB.r) (by simp [color_channels])
  have f2 := hfit (Pixel.green, SampleState.avg_green, GimpRGB.g) (by simp [color_channels])
  have f3 := hfit (Pixel.blue, SampleState.avg_blue, GimpRGB.b) (by simp [color_channels])
  have f4 := hfit (Pixel.alpha, SampleState.avg_alpha, GimpRGB.a) (by simp [color_channels])
  simp only at f1 f2 f3 f4
  have hfits : averaging_fits pickable x y r := by
    unfold averaging_fits
    unfold SampleState.in_range at hin
    rw [hc] at hin f1 f2 f3 f4
    rw [h1] at f1; rw [h2] at f2; rw [h3] at f3; rw [h4] at f4
    omega
  have hlen : 1 ≤ (sampled_pixels pickable x y r).length := by
    have : (1 : Int) ≤ (sampled_count pickable x y r : Int) := hc ▸ hcount
    unfold sampled_count at this
    omega
  obtain ⟨color, hres, v1, v2, v3, v4⟩ :=
    pick_color_of_average pickable x y average_radius want_index r centre hcentre hrad hr
      hx hy hfits
  have k1 := averaged_channel_facts Pixel.red (sampled_pixels pickable x y r) s.avg_red
    s.count color.r.val hlen hc h1 v1
  have k2 := averaged_channel_facts Pixel.green (sampled_pixels pickable x y r) s.avg_green
    s.count color.g.val hlen hc h2 v2
  have k3 := averaged_channel_facts Pixel.blue (sampled_pixels pickable x y r) s.avg_blue
    s.count color.b.val hlen hc h3 v3
  have k4 := averaged_channel_facts Pixel.alpha (sampled_pixels pickable x y r) s.avg_alpha
    s.count color.a.val hlen hc h4 v4
  refine ⟨hc, ?_, color, hres, ?_, ?_⟩
  · intro ch hch
    simp only [color_channels, List.mem_cons, List.mem_singleton, List.not_mem_nil,
      or_false] at hch
    rcases hch with rfl | rfl | rfl | rfl
    · exact h1
    · exact h2
    · exact h3
    · exact h4
  · intro ch hch
    simp only [color_channels, List.mem_cons, List.mem_singleton, List.not_mem_nil,
      or_false] at hch
    rcases hch with rfl | rfl | rfl | rfl
    · exact k1
    · exact k2
    · exact k3
    · exact k4
  · intro p0 hall
    have e : ∀ (c : Pixel → guchar) (v : Nat),
        (∀ lo hi : Nat, (∀ px ∈ sampled_pixels pickable x y r, lo ≤ (c px).val) →
          (∀ px ∈ sampled_pixels pickable x y r, (c px).val ≤ hi) → lo ≤ v ∧ v ≤ hi) →
        v = (c p0).val := by
      intro c v hv
      have := hv (c p0).val (c p0).val (fun px hpx => by rw [hall px hpx])
        (fun px hpx => by rw [hall px hpx])
      omega
    cases color
    simp only [GimpRGB.mk.injEq]
    exact ⟨Fin.ext (e _ _ k1.2.2.2), Fin.ext (e _ _ k2.2.2.2), Fin.ext (e _ _ k3.2.2.2),
      Fin.ext (e _ _ k4.2.2.2)⟩

/-- With a count other than zero the rounding faults by overflow only. -/
theorem rounded_average_fault (avg count : Int) (hc : count ≠ 0) (e : Fault)
    (h : rounded_average avg count = .error e) : e = .signed_overflow := by
  simp only [rounded_average, gint_div, gint_add, gint_result, bind, Except.bind, hc,
    if_false, (by decide : ¬ ((2 : Int) = 0))] at h
  by_cases a1 : is_gint (Int.tdiv count 2)
  · simp only [a1, if_true] at h
    by_cases a2 : is_gint (avg + Int.tdiv count 2)
    · simp only [a2, if_true] at h
      by_cases a3 : is_gint (Int.tdiv (avg + Int.tdiv count 2) count)
      · simp only [a3, if_true] at h
        cases h
      · simp only [a3, if_false] at h
        cases h; rfl
    · simp only [a2, if_false] at h
      cases h; rfl
  · simp only [a1, if_false] at h
    cases h; rfl

/-- With an in-bounds centre and a radius `r ≥ 0` the averaging branch faults by
overflow only. -/
theorem average_pixel_fault (pickable : GimpPickable) (x y : Int)
    (average_radius : gdouble) (r : Int) (centre : Pixel)
    (hcentre : gimp_pickable_get_pixel_at pickable x y (some Babl.RGBA_u8) = some centre)
    (hrad : gdouble_to_gint average_radius = .ok r) (hr : 0 ≤ r) (e : Fault)
    (h : average_pixel pickable (some Babl.RGBA_u8) x y average_radius centre = .error e) :
    e = .signed_overflow := by
  simp only [average_pixel, hrad, bind, Except.bind] at h
  cases hloop : sample_square pickable (some Babl.RGBA_u8) x y r ⟨0, 0, 0, 0, 0, centre⟩ with
  | error e1 =>
      rw [hloop] at h
      cases h
      exact sample_square_fault _ _ _ _ _ _ _ hloop
  | ok s =>
      rw [hloop] at h
      obtain ⟨_, _, hc, _⟩ := sample_square_end pickable x y r centre s hr hloop
      have hpos := sampled_count_pos pickable x y r centre hcentre hr
      have hne : s.count ≠ 0 := by omega
      simp only at h
      cases h1 : rounded_average s.avg_red s.count with
      | error e1 => rw [h1] at h; cases h; exact rounded_average_fault _ _ hne _ h1
      | ok q1 =>
          rw [h1] at h
          cases h2 : rounded_average s.avg_green s.count with
          | error e2 => rw [h2] at h; cases h; exact rounded_average_fault _ _ hne _ h2
          | ok q2 =>
              rw [h2] at h
              cases h3 : rounded_average s.avg_blue s.count with
              | error e3 => rw [h3] at h; cases h; exact rounded_average_fault _ _ hne _ h3
              | ok q3 =>
                  rw [h3] at h
                  cases h4 : rounded_average s.avg_alpha s.count with
                  | error e4 =>
                      rw [h4] at h; cases h; exact rounded_average_fault _ _ hne _ h4
                  | ok q4 => rw [h4] at h; cases h

/-- C15: for an in-bounds centre and a radius that truncates to `r ≥ 0`, the
centre belongs to the coordinates the loops range over and to the pixels they
sample; whenever the loops end, `count` is the number of sampled pixels and at
least 1, so no division by `count` is a division by zero; and the call never
ends in a division by zero. Reads are deterministic in the embedding. The
representability of `x ± r` and `y ± r` is not needed: an unrepresentable bound
ends the run in an overflow before any division. -/
theorem averaging_divisions_safe (pickable : GimpPickable) (x y : Int)
    (average_radius : gdouble) (want_index : Bool) (r : Int) (centre : Pixel)
    (hcentre : gimp_pickable_get_pixel_at pickable x y (some Babl.RGBA_u8) = some centre)
    (hrad : gdouble_to_gint average_radius = .ok r) (hr : 0 ≤ r) :
    ((x, y) ∈ neighbourhood x y r ∧ centre ∈ sampled_pixels pickable x y r) ∧
    (∀ s : SampleState,
      sample_square pickable (some Babl.RGBA_u8) x y r ⟨0, 0, 0, 0, 0, centre⟩ = .ok s →
        s.count = (sampled_count pickable x y r : Int) ∧ 1 ≤ s.count ∧
        ∀ avg : Int, rounded_average avg s.count ≠ .error .division_by_zero) ∧
    gimp_pickable_pick_color pickable x y true average_radius want_index
      ≠ .error .division_by_zero := by
  have hmem : (x, y) ∈ neighbourhood x y r :=
    (mem_neighbourhood x y r x y).2 ⟨⟨by omega, by omega⟩, by omega, by omega⟩
  have hpos := sampled_count_pos pickable x y r centre hcentre hr
  refine ⟨⟨hmem, ?_⟩, ?_, ?_⟩
  · unfold sampled_pixels
    rw [List.mem_filterMap]
    exact ⟨(x, y), hmem, hcentre⟩
  · intro s hloop
    obtain ⟨_, _, hc, _⟩ := sample_square_end pickable x y r centre s hr hloop
    refine ⟨hc, by omega, ?_⟩
    intro avg hdiv
    have := rounded_average_fault avg s.count (by omega) _ hdiv
    cases this
  · intro hdiv
    simp only [gimp_pickable_pick_color, hcentre, if_true, bind, Except.bind] at hdiv
    cases havg : average_pixel pickable (some Babl.RGBA_u8) x y average_radius centre with
    | error e =>
        rw [havg] at hdiv
        cases hdiv
        have := average_pixel_fault pickable x y average_radius r centre hcentre hrad hr _ havg
        cases this
    | ok px => rw [havg] at hdiv; cases hdiv

/-- Witness for C15: the corner `(0, 0)` of the two by two source with radius
1. -/
theorem averaging_divisions_safe_witness :
    gimp_pickable_get_pixel_at tile 0 0 (some Babl.RGBA_u8) = some ⟨5, 0, 3, 255⟩ ∧
    gdouble_to_gint (.finite 1 0) = .ok 1 ∧
    (is_gint (0 - 1) ∧ is_gint (0 + 1)) ∧
    sample_square tile (some Babl.RGBA_u8) 0 0 1 ⟨0, 0, 0, 0, 0, ⟨5, 0, 3, 255⟩⟩
      = .ok ⟨4, 80, 0, 12, 1020, ⟨35, 0, 3, 255⟩⟩ ∧
    gimp_pickable_pick_color tile 0 0 true (.finite 1 0) true ≠ .error .division_by_zero :=
  ⟨by decide, by decide, by decide, by decide,
   (averaging_divisions_safe tile 0 0 (.finite 1 0) true 1 ⟨5, 0, 3, 255⟩ (by decide)
     (by decide) (by decide)).2.2⟩

/-- Witness for C14: the corner `(0, 0)` of the two by two source with radius 1:
four pixels are sampled, the red channel sums to 80 and averages to 20. -/
theorem averaged_channel_range_witness :
    gimp_pickable_get_pixel_at tile 0 0 (some Babl.RGBA_u8) = some ⟨5, 0, 3, 255⟩ ∧
    gdouble_to_gint (.finite 1 0) = .ok 1 ∧
    sample_square tile (some Babl.RGBA_u8) 0 0 1 ⟨0, 0, 0, 0, 0, ⟨5, 0, 3, 255⟩⟩
      = .ok ⟨4, 80, 0, 12, 1020, ⟨35, 0, 3, 255⟩⟩ ∧
    (∀ ch ∈ color_channels,
      ch.2.1 (⟨4, 80, 0, 12, 1020, ⟨35, 0, 3, 255⟩⟩ : SampleState) + 4 / 2 ≤ G_MAXINT) ∧
    (4 : Int) = (sampled_count tile 0 0 1 : Int) ∧
    gimp_pickable_pick_color tile 0 0 true (.finite 1 0) true
      = .ok ⟨true, some ⟨20, 0, 3, 255⟩, some (-1)⟩ :=
  ⟨by decide, by decide, by decide, by decide,
   (averaged_channel_range tile 0 0 (.finite 1 0) true 1 ⟨5, 0, 3, 255⟩
     ⟨4, 80, 0, 12, 1020, ⟨35, 0, 3, 255⟩⟩ (by decide) (by decide) (by decide) (by decide)
     (by decide)).1, by decide⟩

end Gimp
